import Mathlib

/-!
# Verification of `rbtree-rs` (`src/rbtree/mod.rs`, `src/rbtree/node.rs`)

A shallow embedding of the red-black tree implementation.

The Rust code stores nodes on the heap with `parent`/`left`/`right`
pointers and an explicit `Nil` sentinel color (`RbNodeType::Nil`).
Per the documentation in `node.rs`, a `Nil` node always has both
children `None` and no key/value, while a non-`Nil` node always has
both children present.  We therefore embed the pointer structure as an
inductive tree `RTree` in which the constructor `nil` is the sentinel
(no children, no key/value) and `node` carries a color (`Red`/`Black`),
two children (possibly `nil`), and the key/value pair.

The parent pointer chain from a node up to the root is embedded as an
explicit zipper path (`Path`): each entry records, for one ancestor,
on which side the current position hangs (`Dir`), the ancestor's color,
key and value, and the sibling subtree.  `plug` rebuilds the whole tree
from a path and a focused subtree; this is the functional mirror of
following `parent` pointers back to `self.root`.

Rust `panic!`/`unwrap` failures that the tree shape cannot rule out
structurally (e.g. `parent.parent.unwrap()` in the insert fixup, or
reading a sibling's children in the remove fixup) are modeled with
`Except Unit`: `.error ()` marks exactly the executions in which the
Rust code would panic.

All key comparisons in the source go through `Borrow`
(`find_nearest_node` compares `key < x.borrow()`), so the embedding is
parameterized by a projection `pi : K → Q` into a linearly ordered
type `Q` of "borrowed" keys; the Rust `Borrow`/`Ord` contract requires
all comparisons on `K` to agree with comparisons of the projections.
-/

namespace RbEmb

/-- `RbNodeType` from `node.rs`, restricted to real nodes; the `Nil`
variant is represented by the `RTree.nil` constructor instead. -/
inductive Col : Type where
  | red : Col
  | black : Col
deriving DecidableEq, Repr

/-- The heap of `RawNode`s reachable from a node, as a tree.
`nil` is a sentinel node (`RbNodeType::Nil`, childless, keyless);
`node c l k v r` is a real node with color `c` and both children
present, as guaranteed in `node.rs`. -/
inductive RTree (K V : Type) : Type where
  | nil : RTree K V
  | node : Col → RTree K V → K → V → RTree K V → RTree K V
deriving DecidableEq, Repr

namespace RTree

/-- `RbNode::is_nil` -/
def is_nil {K V : Type} : RTree K V → Bool
  | .nil => true
  | .node _ _ _ _ _ => false

/-- `RbNode::is_black`: true for `Black` and for the `Nil` sentinel. -/
def is_black {K V : Type} : RTree K V → Bool
  | .nil => true
  | .node c _ _ _ _ => c = Col.black

/-- `RbNode::is_red` -/
def is_red {K V : Type} (t : RTree K V) : Bool := !t.is_black

/-- `RbNode::set_black`.  On the `Nil` sentinel the Rust code panics
("Modifying Nil is prohibited"); that case is unreachable at every
call site we embed, and the total function returns the input there. -/
def set_black {K V : Type} : RTree K V → RTree K V
  | .nil => .nil
  | .node _ l k v r => .node Col.black l k v r

/-- `RbNode::set_red` (same remark about the sentinel as `set_black`). -/
def set_red {K V : Type} : RTree K V → RTree K V
  | .nil => .nil
  | .node _ l k v r => .node Col.red l k v r

/-- Number of real (non-sentinel) nodes. -/
def size {K V : Type} : RTree K V → Nat
  | .nil => 0
  | .node _ l _ _ r => l.size + r.size + 1

/-- In-order key/value sequence. -/
def inorder {K V : Type} : RTree K V → List (K × V)
  | .nil => []
  | .node _ l k v r => l.inorder ++ (k, v) :: r.inorder

/-- Root color as `RbNodeType` would report it (`none` = sentinel). -/
def rootCol {K V : Type} : RTree K V → Option Col
  | .nil => none
  | .node c _ _ _ _ => some c

end RTree

/-- Which child slot of its parent a position occupies (the Rust code
decides this by identity comparisons such as `parent.left == Some(node)`). -/
inductive Dir : Type where
  | l : Dir
  | r : Dir
deriving DecidableEq, Repr

/-- One step of the parent-pointer chain: the parent's color, key,
value, the sibling subtree, and on which side the current position
hangs (`d = .l` means the position is the parent's *left* child). -/
structure PEnt (K V : Type) : Type where
  d : Dir
  c : Col
  k : K
  v : V
  sib : RTree K V
deriving DecidableEq, Repr

/-- A full parent-pointer chain, nearest ancestor first. -/
abbrev Path (K V : Type) : Type := List (PEnt K V)

/-- Rebuild the tree addressed by a path: the functional mirror of
walking `parent` pointers up to `self.root`. -/
def plug {K V : Type} : Path K V → RTree K V → RTree K V
  | [], t => t
  | ⟨.l, c, k, v, sib⟩ :: p, t => plug p (.node c t k v sib)
  | ⟨.r, c, k, v, sib⟩ :: p, t => plug p (.node c sib k v t)

section Ops

variable {K V Q : Type} [LinearOrder Q]

/-- `RbTree::find_nearest_node` (mod.rs:348-372), additionally
recording the descent path (the information the Rust code keeps in
`parent` pointers).  Descends left on `key < x.borrow()`, right on
`key > x.borrow()`, stops on the node at equality or on a sentinel. -/
def findZip (pi : K → Q) : RTree K V → Q → Path K V → Path K V × RTree K V
  | .nil, _, p => (p, .nil)
  | .node c l k v r, q, p =>
    if q < pi k then findZip pi l q (⟨.l, c, k, v, r⟩ :: p)
    else if pi k < q then findZip pi r q (⟨.r, c, k, v, l⟩ :: p)
    else (p, .node c l k v r)

/-- `RbTree::min_node` (mod.rs:377-394): the left-most non-sentinel
node of the input subtree (the sentinel itself only if the input is
the sentinel), with the descent path below the input recorded. -/
def minZip {K V : Type} : RTree K V → Path K V × RTree K V
  | .nil => ([], .nil)
  | .node c l k v r =>
    match l with
    | .nil => ([], .node c .nil k v r)
    | .node cl ll lk lv lr =>
      let (p, m) := minZip (.node cl ll lk lv lr)
      (p ++ [⟨.l, c, k, v, r⟩], m)

/-- `RbTree::rotate_left` (mod.rs:423-446), as subtree surgery at the
rotated node's position.  The Rust code panics when `node.right` is
`None` (i.e. the node is a sentinel); and with a sentinel right child
the rotation would corrupt the shape — both cases are unreachable at
the call sites we embed, and the total function returns the input. -/
def rotl {K V : Type} : RTree K V → RTree K V
  | .node c a k v (.node c2 b k2 v2 d) => .node c2 (.node c a k v b) k2 v2 d
  | t => t

/-- `RbTree::rotate_right` (mod.rs:453-476); same remarks as `rotl`. -/
def rotr {K V : Type} : RTree K V → RTree K V
  | .node c (.node c2 a k2 v2 b) k v d => .node c2 a k2 v2 (.node c b k v d)
  | t => t

/-- Cases 4 and 5 of the insert fixup (mod.rs:131-156), reached when
the loop broke with `cur` red, its parent red (entry `e`) and the
uncle black (entry `g`, uncle `g.sib`).  Each branch performs exactly
the rotations/recolorings of the source: a first rotation of the
parent when `cur` and parent are zig-zag ("case 4"), then
`parent.set_black(); grand_parent.set_red()` and a rotation of the
grandparent ("case 5"). -/
def insFixFinal {K V : Type} (cur : RTree K V) (e g : PEnt K V) : RTree K V :=
  match e.d, g.d with
  | .r, .l =>
    -- case 4 first branch: rotate_left(parent), cur = parent; then case 5
    -- with cur a left child: rotate_right(grand_parent)
    rotr (.node Col.red (RTree.set_black (rotl (.node Col.red e.sib e.k e.v cur))) g.k g.v g.sib)
  | .l, .r =>
    -- case 4 second branch: rotate_right(parent), cur = parent; then case 5
    -- with cur a right child: rotate_left(grand_parent)
    rotl (.node Col.red g.sib g.k g.v (RTree.set_black (rotr (.node Col.red cur e.k e.v e.sib))))
  | .l, .l =>
    -- straight line, cur a left child: rotate_right(grand_parent)
    rotr (.node Col.red (RTree.set_black (.node e.c cur e.k e.v e.sib)) g.k g.v g.sib)
  | .r, .r =>
    -- straight line, cur a right child: rotate_left(grand_parent)
    rotl (.node Col.red g.sib g.k g.v (RTree.set_black (.node e.c e.sib e.k e.v cur)))

/-- The insert fixup loop (mod.rs:92-156).  `cur` is the current red
node, `p` its parent-pointer chain.  Case 1: no parent — recolor the
root black.  Case 2: parent black — done.  Otherwise the parent is
red; `parent.parent.unwrap()` panics if the red parent is the root
(`.error ()`, unreachable when the tree invariants held before the
insertion).  Case 3: red uncle — push the colors up and continue from
the grandparent.  Cases 4/5: black uncle — `insFixFinal`. -/
def insFix {K V : Type} : Path K V → RTree K V → Except Unit (RTree K V)
  | [], cur => .ok (plug [] cur.set_black)
  | e :: p, cur =>
    if e.c = Col.black then .ok (plug (e :: p) cur)
    else
      match p with
      | [] => .error ()
      | g :: p2 =>
        if (g.sib).is_black then
          -- case 3-2: uncle black, break to the final rotation cases
          .ok (plug p2 (insFixFinal cur e g))
        else
          -- case 3: red uncle: parent black, uncle black, grandparent red
          match g.d with
          | .l => insFix p2 (.node Col.red (mkP e cur) g.k g.v g.sib.set_black)
          | .r => insFix p2 (.node Col.red g.sib.set_black g.k g.v (mkP e cur))
where
  /-- rebuild the parent node around `cur`, recolored black. -/
  mkP (e : PEnt K V) (cur : RTree K V) : RTree K V :=
    match e.d with
    | .l => .node Col.black cur e.k e.v e.sib
    | .r => .node Col.black e.sib e.k e.v cur

/-- `RbTree::insert` (mod.rs:75-157) on the root subtree.  Returns the
previous value when the key was already present (upsert: only the
stored *value* is overwritten — `cur.value.write(value)` — the stored
key, the node's color and the whole structure are untouched, and the
caller's key is discarded).  Otherwise the found sentinel position is
materialized into a red node with two sentinel children
(`cur.init(key, value, Red)`) and the fixup loop runs. -/
def insertT (pi : K → Q) (t : RTree K V) (k : K) (v : V) :
    Except Unit (Option V × RTree K V) :=
  match findZip pi t (pi k) [] with
  | (p, .node c l k0 v0 r) => .ok (some v0, plug p (.node c l k0 v r))
  | (p, .nil) => do
    let t2 ← insFix p (.node Col.red .nil k v .nil)
    pure (none, t2)

/-- Case 5 of the remove fixup (mod.rs:307-324): when the sibling is
black with a red near child and a black far child, recolor
(`sibling.set_red()`, near child `set_black()`) and rotate the sibling
away from the node's side; otherwise the sibling is unchanged.  The
returned tree is the sibling that mod.rs:326-330 re-reads. -/
def delC5 {K V : Type} (ed : Dir) (wc : Col) (wl : RTree K V) (wk : K) (wv : V)
    (wr : RTree K V) : RTree K V :=
  if wc = Col.black ∧ ed = Dir.l ∧ wr.is_black = true ∧ wl.is_red = true then
    rotr (.node Col.red wl.set_black wk wv wr)
  else if wc = Col.black ∧ ed = Dir.r ∧ wl.is_black = true ∧ wr.is_red = true then
    rotl (.node Col.red wl wk wv wr.set_black)
  else .node wc wl wk wv wr

/-- Cases 4-6 of the remove fixup (mod.rs:295-344), run after the loop
broke with parent entry `e` and current node `n`.  If the sibling is a
sentinel the Rust code panics inside the case-4/5 conditions
(`sibling.left.unwrap()`); this is `.error ()`.  Case 4: red parent,
black sibling with two black children — swap the colors of parent and
sibling.  Case 5: black sibling whose near child is red and far child
black — recolor and rotate the sibling, then re-read the sibling.
Case 6: give the sibling the parent's color, blacken the parent and
the sibling's far child, rotate the parent toward `n`'s side. -/
def delCases456 {K V : Type} (n : RTree K V) (e : PEnt K V) (p : Path K V) :
    Except Unit (RTree K V) :=
  match e.sib with
  | .nil => .error ()
  | .node wc wl wk wv wr =>
    if e.c = Col.red ∧ wc = Col.black ∧ wl.is_black = true ∧ wr.is_black = true then
      -- case 4: sibling.set_red(); parent.set_black(); return
      match e.d with
      | .l => .ok (plug p (.node Col.black n e.k e.v (.node Col.red wl wk wv wr)))
      | .r => .ok (plug p (.node Col.black (.node Col.red wl wk wv wr) e.k e.v n))
    else
      -- case 5, then re-read the sibling (mod.rs:326-330), then case 6
      match e.d, delC5 e.d wc wl wk wv wr with
      | .l, .node _ wl2 wk2 wv2 wr2 =>
        .ok (plug p (rotl (.node Col.black n e.k e.v (.node e.c wl2 wk2 wv2 wr2.set_black))))
      | .r, .node _ wl2 wk2 wv2 wr2 =>
        .ok (plug p (rotr (.node Col.black (.node e.c wl2.set_black wk2 wv2 wr2) e.k e.v n)))
      | _, .nil => .error ()

/-- The remove fixup loop (mod.rs:250-293).  Case 1: `n` is the root —
the black-height deficiency is absorbed globally.  A sentinel sibling
makes the case-3 condition panic (`.error ()`, unreachable under the
tree invariants).  Case 2: red sibling — swap parent/sibling colors
and rotate the parent toward `n`'s side; the re-read sibling is the
old sibling's near child, and since the parent is now red the case-3
test fails and control falls through to cases 4-6.  Case 3: parent,
sibling and both of the sibling's children black — recolor the sibling
red and continue from the parent.  Otherwise break to cases 4-6. -/
def delFix {K V : Type} : Path K V → RTree K V → Except Unit (RTree K V)
  | [], n => .ok n
  | e :: p, n =>
    match e.sib with
    | .nil => .error ()
    | .node wc wl wk wv wr =>
      if wc = Col.red then
        match e.d with
        | .l => delCases456 n ⟨.l, Col.red, e.k, e.v, wl⟩ (⟨.l, Col.black, wk, wv, wr⟩ :: p)
        | .r => delCases456 n ⟨.r, Col.red, e.k, e.v, wr⟩ (⟨.r, Col.black, wk, wv, wl⟩ :: p)
      else if e.c = Col.black ∧ wl.is_black = true ∧ wr.is_black = true then
        match e.d with
        | .l => delFix p (.node Col.black n e.k e.v (.node Col.red wl wk wv wr))
        | .r => delFix p (.node Col.black (.node Col.red wl wk wv wr) e.k e.v n)
      else delCases456 n e p

/-- The detach-and-recolor step of `remove_entry` (mod.rs:203-244):
link `child` into the physically removed node's position `p`; if the
removed node was red, stop; if it was black and `child` is red,
recolor `child` black; otherwise run the fixup loop.  (The `Nil` arm
of the Rust `match` is `unreachable!()`: the removed node is real, so
its color is `Red` or `Black` — `Col` has exactly those values.) -/
def detach {K V : Type} (p : Path K V) (c : Col) (child : RTree K V)
    (ret : Option (K × V)) : Except Unit (Option (K × V) × RTree K V) :=
  match c with
  | .red => .ok (ret, plug p child)
  | .black =>
    if child.is_red = true then .ok (ret, plug p child.set_black)
    else do
      let t2 ← delFix p child
      pure (ret, t2)

/-- `RbTree::remove_entry` (mod.rs:172-345) on the root subtree.  If
the search bottoms out on a sentinel, return `none` with the tree
untouched (mod.rs:179-180; no mutation has happened at that point).
Otherwise read out the target's key/value (the returned pair); if the
target's right subtree is non-empty, splice the successor
`min_node(target.right)`'s key/value into the target and physically
remove the successor (whose left child is a sentinel); the removed
node's single possibly-real child replaces it, and the recoloring /
fixup of `detach` runs. -/
def removeEntryT (pi : K → Q) (t : RTree K V) (q : Q) :
    Except Unit (Option (K × V) × RTree K V) :=
  match findZip pi t q [] with
  | (_, .nil) => .ok (none, t)
  | (p, .node tc tl tk tv tr) =>
    match minZip tr with
    | (_, .nil) =>
      -- right_min is the sentinel (target.right is the sentinel): no splice.
      detach p tc (if tl.is_nil then tr else tl) (some (tk, tv))
    | (pm, .node mc ml mk mv mr) =>
      detach (pm ++ ⟨.r, tc, mk, mv, tl⟩ :: p) mc (if ml.is_nil then mr else ml)
        (some (tk, tv))

/-- `RbTree::get` (mod.rs:518-528): value of the node found by
`find_nearest_node`, or `none` on a sentinel. -/
def getT (pi : K → Q) (t : RTree K V) (q : Q) : Option V :=
  match findZip pi t q [] with
  | (_, .nil) => none
  | (_, .node _ _ _ v _) => some v

/-- `RbTree::get_key_value` (mod.rs:531-547). -/
def get_key_valueT (pi : K → Q) (t : RTree K V) (q : Q) : Option (K × V) :=
  match findZip pi t q [] with
  | (_, .nil) => none
  | (_, .node _ _ k v _) => some (k, v)

/-- `RbTree::get_mut` (mod.rs:550-561).  NOTE: despite its name and
its doc comment ("Returns a mutable reference…"), the Rust signature
is `fn get_mut<Q>(&self, key: &Q) -> Option<&V>`: it borrows the tree
immutably and returns an immutable reference, so at the value level it
is exactly `get`. -/
def get_mutT (pi : K → Q) (t : RTree K V) (q : Q) : Option V :=
  match findZip pi t q [] with
  | (_, .nil) => none
  | (_, .node _ _ _ v _) => some v

/-- `RbTree::contains_key` (mod.rs:564-570). -/
def contains_keyT (pi : K → Q) (t : RTree K V) (q : Q) : Bool :=
  !(findZip pi t q []).2.is_nil

/-- `Index::index` (mod.rs:651-658): `panic!("key not found")` on a
sentinel — modeled as `.error ()` — else the found node's value. -/
def indexT (pi : K → Q) (t : RTree K V) (q : Q) : Except Unit V :=
  match findZip pi t q [] with
  | (_, .nil) => .error ()
  | (_, .node _ _ _ v _) => .ok v

/-- `IndexMut::index_mut` (mod.rs:666-673): identical lookup and
`panic!("key not found")`; the returned reference is mutable, which at
the value level is the same found value. -/
def index_mutT (pi : K → Q) (t : RTree K V) (q : Q) : Except Unit V :=
  match findZip pi t q [] with
  | (_, .nil) => .error ()
  | (_, .node _ _ _ v _) => .ok v

end Ops

/-- The container `RbTree` (mod.rs:57-60): the root node and the
running element count `len`. -/
structure Tr (K V : Type) : Type where
  root : RTree K V
  len : Nat
deriving DecidableEq, Repr

section Container

variable {K V Q : Type} [LinearOrder Q]

/-- `RbTree::new` (mod.rs:64-69): root is a fresh sentinel, `len = 0`. -/
def newM (K V : Type) : Tr K V := ⟨.nil, 0⟩

/-- `RbTree::insert` at the container level: `self.len += 1` happens
exactly when a sentinel was materialized into a new node (mod.rs:89). -/
def insertM (pi : K → Q) (t : Tr K V) (k : K) (v : V) :
    Except Unit (Option V × Tr K V) :=
  match insertT pi t.root k v with
  | .error e => .error e
  | .ok (some v0, rt) => .ok (some v0, ⟨rt, t.len⟩)
  | .ok (none, rt) => .ok (none, ⟨rt, t.len + 1⟩)

/-- `RbTree::remove_entry` at the container level: `self.len -= 1`
exactly when a node was detached (mod.rs:233). -/
def removeEntryM (pi : K → Q) (t : Tr K V) (q : Q) :
    Except Unit (Option (K × V) × Tr K V) :=
  match removeEntryT pi t.root q with
  | .error e => .error e
  | .ok (none, rt) => .ok (none, ⟨rt, t.len⟩)
  | .ok (some kv, rt) => .ok (some kv, ⟨rt, t.len - 1⟩)

/-- `RbTree::remove` (mod.rs:160-169): `remove_entry`, keeping only
the value. -/
def removeM (pi : K → Q) (t : Tr K V) (q : Q) :
    Except Unit (Option V × Tr K V) :=
  match removeEntryM pi t q with
  | .error e => .error e
  | .ok (none, t2) => .ok (none, t2)
  | .ok (some (_, v), t2) => .ok (some v, t2)

/-- `RbTree::len` (mod.rs:509-511). -/
def lenM (t : Tr K V) : Nat := t.len

/-- `RbTree::is_empty` (mod.rs:513-515): `self.len == 0`. -/
def is_emptyM (t : Tr K V) : Bool := t.len == 0

/-- `RbTree::clear` (mod.rs:575-602).  If the root is a sentinel it
returns at once.  Otherwise the explicit stack performs a post-order
teardown: each real node is `uninit`-ed (key/value dropped, its — by
then sentinel — children freed, its type set to `Nil`) once both its
children are sentinels, so when the loop finishes the root node is the
single remaining sentinel with no children, i.e. the empty tree shape.
`self.len` is never written anywhere in `clear`, so the stored count
survives unchanged. -/
def clearM (t : Tr K V) : Tr K V :=
  if t.root.is_nil then t else ⟨.nil, t.len⟩

end Container

/-- `iter_next` (mod.rs:685-703): descend left pushing each visited
real node (structural recursion mirrors the `while` loop's first
branch); on a sentinel, pop the most recent ancestor and yield it
together with its right subtree as the new cursor.  Only real nodes
are ever pushed, so the popped node's children exist; the final arm
(sentinel popped) mirrors `cur.right.unwrap()` and is unreachable. -/
def iter_next {K V : Type} :
    RTree K V → List (RTree K V) → Option (RTree K V × RTree K V × List (RTree K V))
  | .node c l k v r, stack => iter_next l (.node c l k v r :: stack)
  | .nil, [] => none
  | .nil, .node c l k v r :: rest => some (r, .node c l k v r, rest)
  | .nil, .nil :: rest => some (.nil, .nil, rest)

/-- Key/value pair read off a yielded node (mod.rs:718-722, 757-761,
797-801); a sentinel has none (never yielded). -/
def kvOf {K V : Type} : RTree K V → List (K × V)
  | .node _ _ k v _ => [(k, v)]
  | .nil => []

/-- Work remaining for one stack entry: the node itself plus its right
subtree (used only as a termination measure for `consume`). -/
def entW {K V : Type} : RTree K V → Nat
  | .node _ _ _ _ r => 1 + r.size
  | .nil => 1

/-- Termination measure for the iteration state. -/
def stackW {K V : Type} (st : List (RTree K V)) : Nat := (st.map entW).sum

theorem iter_next_decrease {K V : Type} :
    ∀ (cur : RTree K V) (st : List (RTree K V)) c2 n st2,
      iter_next cur st = some (c2, n, st2) →
      c2.size + stackW st2 < cur.size + stackW st := by
  intro cur
  induction cur with
  | nil =>
    intro st c2 n st2 h
    match st, h with
    | .node c l k v r :: rest, h =>
      simp only [iter_next, Option.some.injEq, Prod.mk.injEq] at h
      obtain ⟨h1, _, h3⟩ := h
      subst h1; subst h3
      simp [RTree.size, stackW, entW]
    | .nil :: rest, h =>
      simp only [iter_next, Option.some.injEq, Prod.mk.injEq] at h
      obtain ⟨h1, _, h3⟩ := h
      subst h1; subst h3
      simp [RTree.size, stackW, entW]
  | node c l k v r ihl ihr =>
    intro st c2 n st2 h
    have := ihl (.node c l k v r :: st) c2 n st2 h
    simp [RTree.size, stackW, entW] at this ⊢
    omega

/-- The full yielded sequence from an iteration state: repeated
`iter_next` as in the three `Iterator::next` implementations. -/
def consume {K V : Type} (cur : RTree K V) (stack : List (RTree K V)) : List (K × V) :=
  match h : iter_next cur stack with
  | none => []
  | some (c2, n, st2) => kvOf n ++ consume c2 st2
termination_by cur.size + stackW stack
decreasing_by exact iter_next_decrease cur stack c2 n st2 h

/-- The borrowed iterator `Iter` (mod.rs:705-742): starts at
`cur = self.root` with an empty stack and yields `(&K, &V)` pairs. -/
def iterPairs {K V : Type} (t : Tr K V) : List (K × V) := consume t.root []

/-- The mutably-borrowed iterator `IterMut` (mod.rs:744-781): same
`iter_next` engine, yields `(&K, &mut V)` pairs. -/
def iterMutPairs {K V : Type} (t : Tr K V) : List (K × V) := consume t.root []

/-- The owning iterator `IntoIter` (mod.rs:783-823): same `iter_next`
engine, moves each key/value pair out. -/
def intoIterPairs {K V : Type} (t : Tr K V) : List (K × V) := consume t.root []

/-! ## The red-black balance invariant -/

/-- `Bal t c n`: the subtree `t` has root color `c` and black-height
`n` (number of black nodes on every path to a sentinel, the sentinel
counting as black height 0), and no red node in `t` has a red child. -/
inductive Bal {K V : Type} : RTree K V → Col → Nat → Prop where
  | nil : Bal .nil Col.black 0
  | red {l r : RTree K V} {k : K} {v : V} {n : Nat} :
      Bal l Col.black n → Bal r Col.black n → Bal (.node Col.red l k v r) Col.red n
  | black {l r : RTree K V} {k : K} {v : V} {cl cr : Col} {n : Nat} :
      Bal l cl n → Bal r cr n → Bal (.node Col.black l k v r) Col.black (n + 1)

/-- `PathBal p c0 n0 c n`: the parent-pointer chain `p` is the rest of
a red-black tree with root color `c0` and black-height `n0`, whose
hole accepts a subtree of root color `c` and black-height `n`
(red entries demand a black-rooted subtree). -/
inductive PathBal {K V : Type} : Path K V → Col → Nat → Col → Nat → Prop where
  | nil {c0 : Col} {n0 : Nat} : PathBal [] c0 n0 c0 n0
  | redE {p : Path K V} {c0 : Col} {n0 n : Nat} {sib : RTree K V}
      (d : Dir) (k : K) (v : V) :
      Bal sib Col.black n → PathBal p c0 n0 Col.red n →
      PathBal (⟨d, Col.red, k, v, sib⟩ :: p) c0 n0 Col.black n
  | blackE {p : Path K V} {c0 : Col} {n0 n : Nat} {cs c : Col} {sib : RTree K V}
      (d : Dir) (k : K) (v : V) :
      Bal sib cs n → PathBal p c0 n0 Col.black (n + 1) →
      PathBal (⟨d, Col.black, k, v, sib⟩ :: p) c0 n0 c n

theorem Bal.fillExact {K V : Type} {p : Path K V} {c0 c : Col} {n0 n : Nat}
    {t : RTree K V} (hp : PathBal p c0 n0 c n) (ht : Bal t c n) :
    Bal (plug p t) c0 n0 := by
  induction hp generalizing t with
  | nil => exact ht
  | redE d k v hs _ ih =>
    cases d with
    | l => exact ih (Bal.red ht hs)
    | r => exact ih (Bal.red hs ht)
  | blackE d k v hs _ ih =>
    cases d with
    | l => exact ih (Bal.black ht hs)
    | r => exact ih (Bal.black hs ht)

/-- Filling any hole of a (root-black) path with a *black*-rooted
balanced subtree of the right height is always legal, even where a red
subtree was expected. -/
theorem Bal.fillBlack {K V : Type} {p : Path K V} {c : Col} {n0 n : Nat}
    {t : RTree K V} (hp : PathBal p Col.black n0 c n) (ht : Bal t Col.black n) :
    Bal (plug p t) Col.black n0 := by
  cases hp with
  | nil => exact ht
  | redE d k v hs hp2 =>
    cases d with
    | l => simpa only [plug] using Bal.fillExact hp2 (Bal.red ht hs)
    | r => simpa only [plug] using Bal.fillExact hp2 (Bal.red hs ht)
  | blackE d k v hs hp2 =>
    cases d with
    | l => simpa only [plug] using Bal.fillExact hp2 (Bal.black ht hs)
    | r => simpa only [plug] using Bal.fillExact hp2 (Bal.black hs ht)

theorem PathBal.append {K V : Type} {p1 p2 : Path K V} {c0 c1 c : Col}
    {n0 n1 n : Nat} (h1 : PathBal p1 c1 n1 c n) (h2 : PathBal p2 c0 n0 c1 n1) :
    PathBal (p1 ++ p2) c0 n0 c n := by
  induction h1 with
  | nil => exact h2
  | redE d k v hs _ ih => exact PathBal.redE d k v hs (ih h2)
  | blackE d k v hs _ ih => exact PathBal.blackE d k v hs (ih h2)

/-! ## Properties P1-P3 as direct statements about a tree -/

/-- P2: no red node has a red child. -/
def NoRedRed {K V : Type} : RTree K V → Prop
  | .nil => True
  | .node c l _ _ r =>
    NoRedRed l ∧ NoRedRed r ∧ (c = Col.red → l.is_black = true ∧ r.is_black = true)

/-- Black-node counts of all root-to-sentinel paths (a sentinel
contributes count 0 for the empty path below it). -/
def bpc {K V : Type} : RTree K V → List Nat
  | .nil => [0]
  | .node c l _ _ r =>
    (bpc l ++ bpc r).map (fun m => m + (if c = Col.black then 1 else 0))

theorem Bal.is_black_of_black {K V : Type} {t : RTree K V} {n : Nat}
    (h : Bal t Col.black n) : t.is_black = true := by
  cases h <;> rfl

theorem Bal.rootCol_eq {K V : Type} {t : RTree K V} {c : Col} {n : Nat}
    (h : Bal t c n) : t.is_black = (c = Col.black) := by
  cases h <;> simp [RTree.is_black]

theorem Bal.noRedRed {K V : Type} {t : RTree K V} {c : Col} {n : Nat}
    (h : Bal t c n) : NoRedRed t := by
  induction h with
  | nil => trivial
  | red hl hr ihl ihr =>
    exact ⟨ihl, ihr, fun _ => ⟨hl.is_black_of_black, hr.is_black_of_black⟩⟩
  | black hl hr ihl ihr => exact ⟨ihl, ihr, by simp⟩

theorem Bal.bpc_eq {K V : Type} {t : RTree K V} {c : Col} {n : Nat}
    (h : Bal t c n) : ∀ x ∈ bpc t, x = n := by
  induction h with
  | nil => intro x hx; simpa [bpc] using hx
  | red hl hr ihl ihr =>
    intro x hx
    simp only [bpc, List.mem_map, List.mem_append] at hx
    obtain ⟨m, hm, rfl⟩ := hx
    rcases hm with hm | hm
    · simp [ihl m hm]
    · simp [ihr m hm]
  | black hl hr ihl ihr =>
    intro x hx
    simp only [bpc, List.mem_map, List.mem_append] at hx
    obtain ⟨m, hm, rfl⟩ := hx
    rcases hm with hm | hm
    · simp [ihl m hm]
    · simp [ihr m hm]

/-! ## In-order decomposition of a plugged path -/

/-- The pairs lying strictly to the left of a path's hole. -/
def leftL {K V : Type} : Path K V → List (K × V)
  | [] => []
  | ⟨.l, _, _, _, _⟩ :: p => leftL p
  | ⟨.r, _, k, v, sib⟩ :: p => leftL p ++ sib.inorder ++ [(k, v)]

/-- The pairs lying strictly to the right of a path's hole. -/
def rightL {K V : Type} : Path K V → List (K × V)
  | [] => []
  | ⟨.l, _, k, v, sib⟩ :: p => (k, v) :: sib.inorder ++ rightL p
  | ⟨.r, _, _, _, _⟩ :: p => rightL p

theorem inorder_plug {K V : Type} :
    ∀ (p : Path K V) (s : RTree K V),
      (plug p s).inorder = leftL p ++ s.inorder ++ rightL p := by
  intro p
  induction p with
  | nil => intro s; simp [plug, leftL, rightL]
  | cons e p ih =>
    intro s
    obtain ⟨d, c, k, v, sib⟩ := e
    cases d with
    | l =>
      simp only [plug, ih, RTree.inorder, leftL, rightL]
      simp
    | r =>
      simp only [plug, ih, RTree.inorder, leftL, rightL]
      simp

theorem plug_append {K V : Type} :
    ∀ (p1 p2 : Path K V) (s : RTree K V),
      plug (p1 ++ p2) s = plug p2 (plug p1 s) := by
  intro p1
  induction p1 with
  | nil => intro p2 s; rfl
  | cons e p ih =>
    intro p2 s
    obtain ⟨d, c, k, v, sib⟩ := e
    cases d <;> simp only [List.cons_append, plug] <;> exact ih _ _

theorem size_eq_inorder {K V : Type} (t : RTree K V) : t.size = t.inorder.length := by
  induction t with
  | nil => rfl
  | node c l k v r ihl ihr => simp [RTree.size, RTree.inorder, ihl, ihr]; omega

theorem size_plug {K V : Type} (p : Path K V) (s : RTree K V) :
    (plug p s).size = (leftL p).length + s.size + (rightL p).length := by
  rw [size_eq_inorder, inorder_plug]
  simp [size_eq_inorder s]
  omega

/-! ## Binary-search-tree ordering (P4) with open interval bounds -/

section OrderInv

variable {K V Q : Type} [LinearOrder Q]

/-- `lo < x`, with `none` meaning unbounded below. -/
def loLt : Option Q → Q → Prop
  | none, _ => True
  | some a, x => a < x

/-- `x < hi`, with `none` meaning unbounded above. -/
def ltHi : Q → Option Q → Prop
  | _, none => True
  | x, some b => x < b

/-- The search-tree ordering property within an open interval: every
projected key lies strictly between the bounds and separates its
subtrees. -/
def Bdd (pi : K → Q) : RTree K V → Option Q → Option Q → Prop
  | .nil, _, _ => True
  | .node _ l k _ r, lo, hi =>
    loLt lo (pi k) ∧ ltHi (pi k) hi ∧
      Bdd pi l lo (some (pi k)) ∧ Bdd pi r (some (pi k)) hi

/-- `PathB pi p Lo Hi lo hi`: the path `p` is well-ordered, occupies
the outer interval `(Lo, Hi)`, and its hole has interval `(lo, hi)`. -/
inductive PathB (pi : K → Q) : Path K V → Option Q → Option Q → Option Q → Option Q → Prop
  | nil {Lo Hi : Option Q} : PathB pi [] Lo Hi Lo Hi
  | consL {p : Path K V} {Lo Hi lo hi : Option Q} {c : Col} {k : K} {v : V}
      {sib : RTree K V} :
      PathB pi p Lo Hi lo hi → loLt lo (pi k) → ltHi (pi k) hi →
      Bdd pi sib (some (pi k)) hi →
      PathB pi (⟨.l, c, k, v, sib⟩ :: p) Lo Hi lo (some (pi k))
  | consR {p : Path K V} {Lo Hi lo hi : Option Q} {c : Col} {k : K} {v : V}
      {sib : RTree K V} :
      PathB pi p Lo Hi lo hi → loLt lo (pi k) → ltHi (pi k) hi →
      Bdd pi sib lo (some (pi k)) →
      PathB pi (⟨.r, c, k, v, sib⟩ :: p) Lo Hi (some (pi k)) hi

theorem PathB.fill {pi : K → Q} {p : Path K V} {Lo Hi lo hi : Option Q}
    {s : RTree K V} (hp : PathB pi p Lo Hi lo hi) (hs : Bdd pi s lo hi) :
    Bdd pi (plug p s) Lo Hi := by
  induction hp generalizing s with
  | nil => exact hs
  | consL hp2 hk1 hk2 hsib ih => exact ih ⟨hk1, hk2, hs, hsib⟩
  | consR hp2 hk1 hk2 hsib ih => exact ih ⟨hk1, hk2, hsib, hs⟩

theorem PathB.comp {pi : K → Q} {p1 p2 : Path K V}
    {Lo Hi lo1 hi1 lo hi : Option Q}
    (h1 : PathB pi p1 lo1 hi1 lo hi) (h2 : PathB pi p2 Lo Hi lo1 hi1) :
    PathB pi (p1 ++ p2) Lo Hi lo hi := by
  induction h1 with
  | nil => exact h2
  | consL hp2 hk1 hk2 hsib ih => exact PathB.consL (ih h2) hk1 hk2 hsib
  | consR hp2 hk1 hk2 hsib ih => exact PathB.consR (ih h2) hk1 hk2 hsib

theorem Bdd.loosen {pi : K → Q} :
    ∀ {t : RTree K V} {lo hi lo2 hi2 : Option Q}, Bdd pi t lo hi →
      (∀ x, loLt lo x → loLt lo2 x) → (∀ x, ltHi x hi → ltHi x hi2) →
      Bdd pi t lo2 hi2 := by
  intro t
  induction t with
  | nil => intro lo hi lo2 hi2 _ _ _; trivial
  | node c l k v r ihl ihr =>
    intro lo hi lo2 hi2 h hlo hhi
    obtain ⟨h1, h2, h3, h4⟩ := h
    exact ⟨hlo _ h1, hhi _ h2, ihl h3 hlo (fun x hx => hx), ihr h4 (fun x hx => hx) hhi⟩

theorem Bdd.mem_bounds {pi : K → Q} :
    ∀ {t : RTree K V} {lo hi : Option Q}, Bdd pi t lo hi →
      ∀ x ∈ t.inorder, loLt lo (pi x.1) ∧ ltHi (pi x.1) hi := by
  intro t
  induction t with
  | nil => intro lo hi _ x hx; simp [RTree.inorder] at hx
  | node c l k v r ihl ihr =>
    intro lo hi h x hx
    obtain ⟨h1, h2, h3, h4⟩ := h
    simp only [RTree.inorder, List.mem_append, List.mem_cons] at hx
    rcases hx with hx | hx | hx
    · obtain ⟨b1, b2⟩ := ihl h3 x hx
      refine ⟨b1, ?_⟩
      cases hi with
      | none => trivial
      | some b =>
        have : pi x.1 < pi k := b2
        exact lt_trans this h2
    · subst hx; exact ⟨h1, h2⟩
    · obtain ⟨b1, b2⟩ := ihr h4 x hx
      refine ⟨?_, b2⟩
      cases lo with
      | none => trivial
      | some a =>
        have : pi k < pi x.1 := b1
        exact lt_trans h1 this

theorem Bdd.pairwise {pi : K → Q} :
    ∀ {t : RTree K V} {lo hi : Option Q}, Bdd pi t lo hi →
      t.inorder.Pairwise (fun a b => pi a.1 < pi b.1) := by
  intro t
  induction t with
  | nil => intro lo hi _; simp [RTree.inorder]
  | node c l k v r ihl ihr =>
    intro lo hi h
    obtain ⟨h1, h2, h3, h4⟩ := h
    simp only [RTree.inorder]
    rw [List.pairwise_append]
    refine ⟨ihl h3, ?_, ?_⟩
    · rw [List.pairwise_cons]
      refine ⟨fun b hb => (Bdd.mem_bounds h4 b hb).1, ihr h4⟩
    · intro a ha b hb
      have hak : pi a.1 < pi k := (Bdd.mem_bounds h3 a ha).2
      simp only [List.mem_cons] at hb
      rcases hb with hb | hb
      · subst hb; exact hak
      · exact lt_trans hak (Bdd.mem_bounds h4 b hb).1

theorem bdd_of_pairwise {pi : K → Q} :
    ∀ (t : RTree K V) (lo hi : Option Q),
      t.inorder.Pairwise (fun a b => pi a.1 < pi b.1) →
      (∀ x ∈ t.inorder, loLt lo (pi x.1) ∧ ltHi (pi x.1) hi) →
      Bdd pi t lo hi := by
  intro t
  induction t with
  | nil => intro lo hi _ _; trivial
  | node c l k v r ihl ihr =>
    intro lo hi hpw hmem
    simp only [RTree.inorder] at hpw hmem
    rw [List.pairwise_append] at hpw
    obtain ⟨pwl, pwr, cross⟩ := hpw
    rw [List.pairwise_cons] at pwr
    obtain ⟨hkr, pwr⟩ := pwr
    have hmemk := hmem (k, v) (by simp)
    refine ⟨hmemk.1, hmemk.2, ?_, ?_⟩
    · refine ihl lo (some (pi k)) pwl ?_
      intro x hx
      exact ⟨(hmem x (by simp [hx])).1, cross x hx (k, v) (by simp)⟩
    · refine ihr (some (pi k)) hi pwr ?_
      intro x hx
      exact ⟨hkr x hx, (hmem x (by simp [hx])).2⟩

end OrderInv

/-! ## Lemmas about the search descent and the minimum descent -/

theorem leftL_append {K V : Type} :
    ∀ (p1 p2 : Path K V), leftL (p1 ++ p2) = leftL p2 ++ leftL p1 := by
  intro p1
  induction p1 with
  | nil => intro p2; simp [leftL]
  | cons e p ih =>
    intro p2
    obtain ⟨d, c, k, v, sib⟩ := e
    cases d with
    | l => simp only [List.cons_append, leftL]; exact ih p2
    | r =>
      simp only [List.cons_append, leftL, List.append_eq]
      rw [ih p2]
      simp [List.append_assoc]

theorem rightL_append {K V : Type} :
    ∀ (p1 p2 : Path K V), rightL (p1 ++ p2) = rightL p1 ++ rightL p2 := by
  intro p1
  induction p1 with
  | nil => intro p2; simp [rightL]
  | cons e p ih =>
    intro p2
    obtain ⟨d, c, k, v, sib⟩ := e
    cases d with
    | l =>
      simp only [List.cons_append, rightL, List.append_eq]
      rw [ih p2]
      simp [List.append_assoc]
    | r => simp only [List.cons_append, rightL]; exact ih p2

section FindLemmas

variable {K V Q : Type} [LinearOrder Q]

theorem findZip_plug {pi : K → Q} :
    ∀ (t : RTree K V) (q : Q) (p0 p : Path K V) (f : RTree K V),
      findZip pi t q p0 = (p, f) → plug p f = plug p0 t := by
  intro t
  induction t with
  | nil =>
    intro q p0 p f h
    simp only [findZip, Prod.mk.injEq] at h
    obtain ⟨rfl, rfl⟩ := h; rfl
  | node c l k v r ihl ihr =>
    intro q p0 p f h
    simp only [findZip] at h
    split at h
    · exact ihl q _ p f h
    · split at h
      · exact ihr q _ p f h
      · simp only [Prod.mk.injEq] at h
        obtain ⟨rfl, rfl⟩ := h; rfl

theorem findZip_focus {pi : K → Q} :
    ∀ (t : RTree K V) (q : Q) (p0 p : Path K V) (f : RTree K V),
      findZip pi t q p0 = (p, f) →
      f = .nil ∨ ∃ c l2 k v r, f = .node c l2 k v r ∧ pi k = q := by
  intro t
  induction t with
  | nil =>
    intro q p0 p f h
    simp only [findZip, Prod.mk.injEq] at h
    exact Or.inl h.2.symm
  | node c l k v r ihl ihr =>
    intro q p0 p f h
    simp only [findZip] at h
    split at h
    · exact ihl q _ p f h
    · split at h
      · exact ihr q _ p f h
      · simp only [Prod.mk.injEq] at h
        refine Or.inr ⟨c, l, k, v, r, h.2.symm, ?_⟩
        rename_i h1 h2
        exact le_antisymm (not_lt.1 h1) (not_lt.1 h2)

theorem findZip_bal {pi : K → Q} :
    ∀ (t : RTree K V) (q : Q) (p0 p : Path K V) (f : RTree K V)
      {c0 c : Col} {n0 n : Nat},
      Bal t c n → PathBal p0 c0 n0 c n → findZip pi t q p0 = (p, f) →
      ∃ c2 n2, Bal f c2 n2 ∧ PathBal p c0 n0 c2 n2 := by
  intro t
  induction t with
  | nil =>
    intro q p0 p f c0 c n0 n hb hp h
    simp only [findZip, Prod.mk.injEq] at h
    obtain ⟨rfl, rfl⟩ := h
    cases hb
    exact ⟨Col.black, 0, Bal.nil, hp⟩
  | node c l k v r ihl ihr =>
    intro q p0 p f c0 cc n0 n hb hp h
    simp only [findZip] at h
    split at h
    · cases hb with
      | red hl hr => exact ihl q _ p f hl (PathBal.redE _ k v hr hp) h
      | black hl hr => exact ihl q _ p f hl (PathBal.blackE _ k v hr hp) h
    · split at h
      · cases hb with
        | red hl hr => exact ihr q _ p f hr (PathBal.redE _ k v hl hp) h
        | black hl hr => exact ihr q _ p f hr (PathBal.blackE _ k v hl hp) h
      · simp only [Prod.mk.injEq] at h
        obtain ⟨rfl, rfl⟩ := h
        exact ⟨cc, n, hb, hp⟩

theorem findZip_bdd {pi : K → Q} :
    ∀ (t : RTree K V) (q : Q) (p0 p : Path K V) (f : RTree K V)
      {Lo Hi lo hi : Option Q},
      Bdd pi t lo hi → PathB pi p0 Lo Hi lo hi → loLt lo q → ltHi q hi →
      findZip pi t q p0 = (p, f) →
      ∃ lo2 hi2, PathB pi p Lo Hi lo2 hi2 ∧ Bdd pi f lo2 hi2 ∧
        loLt lo2 q ∧ ltHi q hi2 := by
  intro t
  induction t with
  | nil =>
    intro q p0 p f Lo Hi lo hi hb hp hq1 hq2 h
    simp only [findZip, Prod.mk.injEq] at h
    obtain ⟨rfl, rfl⟩ := h
    exact ⟨lo, hi, hp, trivial, hq1, hq2⟩
  | node c l k v r ihl ihr =>
    intro q p0 p f Lo Hi lo hi hb hp hq1 hq2 h
    obtain ⟨h1, h2, h3, h4⟩ := hb
    simp only [findZip] at h
    split at h
    · rename_i hq
      exact ihl q _ p f h3 (PathB.consL hp h1 h2 h4) hq1 hq h
    · split at h
      · rename_i hq
        exact ihr q _ p f h4 (PathB.consR hp h1 h2 h3) hq hq2 h
      · simp only [Prod.mk.injEq] at h
        obtain ⟨rfl, rfl⟩ := h
        exact ⟨lo, hi, hp, ⟨h1, h2, h3, h4⟩, hq1, hq2⟩

theorem minZip_plug {K V : Type} :
    ∀ (t : RTree K V) (pm : Path K V) (m : RTree K V),
      minZip t = (pm, m) → plug pm m = t := by
  intro t
  induction t with
  | nil =>
    intro pm m h
    simp only [minZip, Prod.mk.injEq] at h
    obtain ⟨rfl, rfl⟩ := h; rfl
  | node c l k v r ihl ihr =>
    intro pm m h
    match l, h with
    | .nil, h =>
      simp only [minZip, Prod.mk.injEq] at h
      obtain ⟨rfl, rfl⟩ := h; rfl
    | .node cl ll lk lv lr, h =>
      simp only [minZip, Prod.mk.injEq] at h
      obtain ⟨rfl, rfl⟩ := h
      rw [plug_append]
      rw [ihl _ _ rfl]
      rfl

theorem minZip_nil {K V : Type} :
    ∀ (t : RTree K V) (pm : Path K V), minZip t = (pm, .nil) → t = .nil := by
  intro t
  cases t with
  | nil => intro pm _; rfl
  | node c l k v r =>
    intro pm h
    match l, h with
    | .nil, h =>
      simp only [minZip, Prod.mk.injEq] at h
      exact RTree.noConfusion h.2
    | .node cl ll lk lv lr, h =>
      simp only [minZip, Prod.mk.injEq] at h
      obtain ⟨_, h2⟩ := h
      have h3 : minZip (RTree.node cl ll lk lv lr) =
          ((minZip (RTree.node cl ll lk lv lr)).1, RTree.nil) := Prod.ext rfl h2
      have := minZip_nil (.node cl ll lk lv lr) _ h3
      exact absurd this (by simp)

theorem minZip_left_nil {K V : Type} :
    ∀ (t : RTree K V) (pm : Path K V) mc (ml : RTree K V) mk mv mr,
      minZip t = (pm, .node mc ml mk mv mr) → ml = .nil := by
  intro t
  induction t with
  | nil =>
    intro pm mc ml mk mv mr h
    simp only [minZip, Prod.mk.injEq] at h
    exact RTree.noConfusion h.2
  | node c l k v r ihl ihr =>
    intro pm mc ml mk mv mr h
    match l, h with
    | .nil, h =>
      simp only [minZip, Prod.mk.injEq, RTree.node.injEq] at h
      exact h.2.2.1.symm
    | .node cl ll lk lv lr, h =>
      simp only [minZip, Prod.mk.injEq] at h
      have h3 : minZip (RTree.node cl ll lk lv lr) =
          ((minZip (RTree.node cl ll lk lv lr)).1, RTree.node mc ml mk mv mr) :=
        Prod.ext rfl h.2
      exact ihl _ mc ml mk mv mr h3

theorem minZip_leftL {K V : Type} :
    ∀ (t : RTree K V), leftL (minZip t).1 = [] := by
  intro t
  induction t with
  | nil => rfl
  | node c l k v r ihl ihr =>
    match l with
    | .nil => rfl
    | .node cl ll lk lv lr =>
      show leftL ((minZip (.node cl ll lk lv lr)).1 ++ [⟨.l, c, k, v, r⟩]) = []
      rw [leftL_append, ihl]
      rfl

theorem minZip_bal {K V : Type} :
    ∀ (t : RTree K V) {c : Col} {n : Nat} (pm : Path K V) (m : RTree K V),
      Bal t c n → minZip t = (pm, m) →
      ∃ cm nm, Bal m cm nm ∧ PathBal pm c n cm nm := by
  intro t
  induction t with
  | nil =>
    intro c n pm m hb h
    simp only [minZip, Prod.mk.injEq] at h
    obtain ⟨rfl, rfl⟩ := h
    cases hb
    exact ⟨Col.black, 0, Bal.nil, PathBal.nil⟩
  | node c l k v r ihl ihr =>
    intro cc n pm m hb h
    match l, h with
    | .nil, h =>
      simp only [minZip, Prod.mk.injEq] at h
      obtain ⟨rfl, rfl⟩ := h
      exact ⟨cc, n, hb, PathBal.nil⟩
    | .node cl2 ll lk lv lr, h =>
      simp only [minZip, Prod.mk.injEq] at h
      obtain ⟨rfl, rfl⟩ := h
      cases hb with
      | red hl hr =>
        obtain ⟨cm, nm, hm, hpm⟩ := ihl _ _ hl rfl
        exact ⟨cm, nm, hm,
          PathBal.append hpm (PathBal.redE _ k v hr PathBal.nil)⟩
      | black hl hr =>
        obtain ⟨cm, nm, hm, hpm⟩ := ihl _ _ hl rfl
        exact ⟨cm, nm, hm,
          PathBal.append hpm (PathBal.blackE _ k v hr PathBal.nil)⟩

theorem minZip_bdd {K V Q : Type} [LinearOrder Q] {pi : K → Q} :
    ∀ (t : RTree K V) {lo hi : Option Q} (pm : Path K V) mc ml mk mv
      (mr : RTree K V),
      Bdd pi t lo hi → minZip t = (pm, .node mc ml mk mv mr) →
      loLt lo (pi mk) ∧ ltHi (pi mk) hi ∧
        Bdd pi (plug pm mr) (some (pi mk)) hi := by
  intro t
  induction t with
  | nil =>
    intro lo hi pm mc ml mk mv mr _ h
    simp only [minZip, Prod.mk.injEq] at h
    exact RTree.noConfusion h.2
  | node c l k v r ihl ihr =>
    intro lo hi pm mc ml mk mv mr hb h
    obtain ⟨h1, h2, h3, h4⟩ := hb
    match l, h with
    | .nil, h =>
      simp only [minZip, Prod.mk.injEq, RTree.node.injEq] at h
      obtain ⟨rfl, rfl, rfl, rfl, rfl, rfl⟩ := h
      exact ⟨h1, h2, h4⟩
    | .node cl2 ll lk lv lr, h =>
      simp only [minZip, Prod.mk.injEq] at h
      obtain ⟨rfl, h5⟩ := h
      have h6 : minZip (RTree.node cl2 ll lk lv lr) =
          ((minZip (RTree.node cl2 ll lk lv lr)).1, RTree.node mc ml mk mv mr) :=
        Prod.ext rfl h5
      obtain ⟨b1, b2, b3⟩ := ihl _ mc ml mk mv mr h3 h6
      refine ⟨b1, ?_, ?_⟩
      · cases hi with
        | none => trivial
        | some b => exact lt_trans (b2 : pi mk < pi k) (h2 : pi k < b)
      · rw [plug_append]
        exact ⟨b2, h2, b3, h4⟩

end FindLemmas

/-! ## Lookup specifications via the in-order list -/

section Lookup

variable {K V Q : Type} [LinearOrder Q]

/-- First pair of the list whose projected key equals `q`. -/
def lookupL (pi : K → Q) : List (K × V) → Q → Option (K × V)
  | [], _ => none
  | x :: xs, q => if pi x.1 = q then some x else lookupL pi xs q

theorem lookupL_append_some {pi : K → Q} :
    ∀ (A B : List (K × V)) (q : Q) (x : K × V),
      lookupL pi A q = some x → lookupL pi (A ++ B) q = some x := by
  intro A
  induction A with
  | nil => intro B q x h; exact absurd h (by simp [lookupL])
  | cons y ys ih =>
    intro B q x h
    simp only [lookupL] at h
    simp only [List.cons_append, lookupL]
    split at h
    · rename_i hy; rw [if_pos hy]; exact h
    · rename_i hy; rw [if_neg hy]; exact ih B q x h

theorem lookupL_append_none {pi : K → Q} :
    ∀ (A B : List (K × V)) (q : Q),
      lookupL pi A q = none → lookupL pi (A ++ B) q = lookupL pi B q := by
  intro A
  induction A with
  | nil => intro B q _; rfl
  | cons y ys ih =>
    intro B q h
    simp only [lookupL] at h
    simp only [List.cons_append, lookupL]
    split at h
    · exact absurd h (by simp)
    · rename_i hy; rw [if_neg hy]; exact ih B q h

theorem lookupL_none {pi : K → Q} :
    ∀ (A : List (K × V)) (q : Q), (∀ x ∈ A, pi x.1 ≠ q) → lookupL pi A q = none := by
  intro A
  induction A with
  | nil => intro q _; rfl
  | cons x xs ih =>
    intro q h
    simp only [lookupL]
    rw [if_neg (h x (by simp))]
    exact ih q (fun y hy => h y (by simp [hy]))

theorem findZip_focus_indep {pi : K → Q} :
    ∀ (t : RTree K V) (q : Q) (p0 p1 : Path K V),
      (findZip pi t q p0).2 = (findZip pi t q p1).2 := by
  intro t
  induction t with
  | nil => intro q p0 p1; rfl
  | node c l k v r ihl ihr =>
    intro q p0 p1
    simp only [findZip]
    split
    · exact ihl q _ _
    · split
      · exact ihr q _ _
      · rfl

theorem get_key_valueT_focus {pi : K → Q} (t : RTree K V) (q : Q) :
    get_key_valueT pi t q = (match (findZip pi t q []).2 with
      | .nil => none
      | .node _ _ k v _ => some (k, v)) := by
  unfold get_key_valueT
  rcases h : findZip pi t q [] with ⟨p, f⟩
  cases f <;> rfl

theorem findZip_focus_node {pi : K → Q} (c : Col) (l : RTree K V) (k : K)
    (v : V) (r : RTree K V) (q : Q) :
    (findZip pi (.node c l k v r) q []).2 =
      (if q < pi k then (findZip pi l q []).2
       else if pi k < q then (findZip pi r q []).2
       else .node c l k v r) := by
  simp only [findZip]
  split
  · exact findZip_focus_indep l q _ _
  · split
    · exact findZip_focus_indep r q _ _
    · rfl

theorem get_key_valueT_eq_lookupL {pi : K → Q} :
    ∀ (t : RTree K V) {lo hi : Option Q} (q : Q), Bdd pi t lo hi →
      get_key_valueT pi t q = lookupL pi t.inorder q := by
  intro t
  induction t with
  | nil => intro lo hi q _; rfl
  | node c l k v r ihl ihr =>
    intro lo hi q hb
    obtain ⟨h1, h2, h3, h4⟩ := hb
    rw [get_key_valueT_focus, findZip_focus_node]
    rcases lt_trichotomy q (pi k) with hq | hq | hq
    · rw [if_pos hq, ← get_key_valueT_focus, ihl q h3]
      simp only [RTree.inorder]
      have hrn : lookupL pi ((k, v) :: r.inorder) q = none := by
        refine lookupL_none _ q ?_
        intro x hx
        simp only [List.mem_cons] at hx
        rcases hx with hx | hx
        · subst hx
          intro hc
          rw [hc] at hq
          exact absurd hq (lt_irrefl q)
        · have hbx := (Bdd.mem_bounds h4 x hx).1
          simp only [loLt] at hbx
          intro hc
          rw [hc] at hbx
          exact absurd (lt_trans hq hbx) (lt_irrefl q)
      cases hll : lookupL pi l.inorder q with
      | none => rw [lookupL_append_none _ _ _ hll, hrn]
      | some x => rw [lookupL_append_some _ _ _ _ hll]
    · rw [if_neg (by rw [hq]; exact lt_irrefl _), if_neg (by rw [hq]; exact lt_irrefl _)]
      simp only [RTree.inorder]
      have hln : lookupL pi l.inorder q = none := by
        refine lookupL_none _ q ?_
        intro x hx
        have hbx := (Bdd.mem_bounds h3 x hx).2
        simp only [ltHi] at hbx
        intro hc
        rw [hc, ← hq] at hbx
        exact absurd hbx (lt_irrefl q)
      rw [lookupL_append_none _ _ _ hln]
      simp [lookupL, hq]
    · rw [if_neg (fun hc => absurd (lt_trans hc hq) (lt_irrefl _)), if_pos hq,
        ← get_key_valueT_focus, ihr q h4]
      simp only [RTree.inorder]
      have hln : lookupL pi l.inorder q = none := by
        refine lookupL_none _ q ?_
        intro x hx
        have hbx := (Bdd.mem_bounds h3 x hx).2
        simp only [ltHi] at hbx
        intro hc
        rw [hc] at hbx
        exact absurd (lt_trans hbx hq) (lt_irrefl _)
      rw [lookupL_append_none _ _ _ hln]
      simp only [lookupL]
      rw [if_neg ?hkq]
      case hkq =>
        intro hc
        rw [hc] at hq
        exact absurd hq (lt_irrefl q)

theorem getT_eq_get_key_valueT {pi : K → Q} (t : RTree K V) (q : Q) :
    getT pi t q = (get_key_valueT pi t q).map Prod.snd := by
  simp only [getT, get_key_valueT]
  cases (findZip pi t q []) with
  | mk p f => cases f <;> rfl

theorem get_mutT_eq_getT {pi : K → Q} (t : RTree K V) (q : Q) :
    get_mutT pi t q = getT pi t q := rfl

theorem contains_keyT_eq {pi : K → Q} (t : RTree K V) (q : Q) :
    contains_keyT pi t q = (get_key_valueT pi t q).isSome := by
  simp only [contains_keyT, get_key_valueT]
  cases (findZip pi t q []) with
  | mk p f => cases f <;> rfl

theorem indexT_eq_getT {pi : K → Q} (t : RTree K V) (q : Q) :
    indexT pi t q = (match getT pi t q with
      | none => Except.error ()
      | some v => Except.ok v) := by
  simp only [indexT, getT]
  cases (findZip pi t q []) with
  | mk p f => cases f <;> rfl

theorem index_mutT_eq_indexT {pi : K → Q} (t : RTree K V) (q : Q) :
    index_mutT pi t q = indexT pi t q := rfl

end Lookup

/-! ## Correctness of the insert fixup -/

theorem inorder_set_black {K V : Type} (t : RTree K V) :
    t.set_black.inorder = t.inorder := by
  cases t <;> rfl

theorem Bal.black_of_is_black {K V : Type} {t : RTree K V} {c : Col} {m : Nat}
    (h : Bal t c m) (hb : t.is_black = true) : c = Col.black := by
  cases h <;> first | rfl | (simp [RTree.is_black] at hb)

theorem Bal.red_of_not_black {K V : Type} {t : RTree K V} {c : Col} {m : Nat}
    (h : Bal t c m) (hb : ¬ t.is_black = true) : c = Col.red := by
  cases h <;> first | rfl | (exact absurd rfl hb)

theorem insFixFinal_ok {K V : Type} {cl cr : RTree K V} {ck : K} {cv : V}
    {e g : PEnt K V} {m : Nat}
    (hcl : Bal cl Col.black m) (hcr : Bal cr Col.black m)
    (hes : Bal e.sib Col.black m) (hgs : Bal g.sib Col.black m) :
    Bal (insFixFinal (.node Col.red cl ck cv cr) e g) Col.black (m + 1) ∧
      (insFixFinal (.node Col.red cl ck cv cr) e g).inorder =
        (plug [e, g] (.node Col.red cl ck cv cr)).inorder := by
  obtain ⟨ed, ec, ek, ev, es⟩ := e
  obtain ⟨gd, gc, gk, gv, gs⟩ := g
  simp only at hes hgs
  cases ed <;> cases gd <;>
    simp only [insFixFinal, rotl, rotr, RTree.set_black, plug] <;>
    refine ⟨?_, ?_⟩
  · exact Bal.black (Bal.red hcl hcr) (Bal.red hes hgs)
  · simp [RTree.inorder, List.append_assoc]
  · exact Bal.black (Bal.red hgs hcl) (Bal.red hcr hes)
  · simp [RTree.inorder, List.append_assoc]
  · exact Bal.black (Bal.red hes hcl) (Bal.red hcr hgs)
  · simp [RTree.inorder, List.append_assoc]
  · exact Bal.black (Bal.red hgs hes) (Bal.red hcl hcr)
  · simp [RTree.inorder, List.append_assoc]

theorem insFix_ok {K V : Type} :
    ∀ (N : Nat) (p : Path K V) (cur : RTree K V) {n0 m : Nat} {c : Col},
      p.length ≤ N →
      PathBal p Col.black n0 c m → Bal cur Col.red m →
      ∃ t2 n2, insFix p cur = .ok t2 ∧ Bal t2 Col.black n2 ∧
        t2.inorder = (plug p cur).inorder := by
  intro N
  induction N with
  | zero =>
    intro p cur n0 m c hlen hp hc
    have hpnil : p = [] := List.eq_nil_of_length_eq_zero (Nat.le_zero.1 hlen)
    subst hpnil
    cases hc with
    | red hl hr =>
      exact ⟨_, m + 1, rfl, Bal.black hl hr,
        by simp [plug, RTree.set_black, RTree.inorder]⟩
  | succ N ih =>
    intro p cur n0 m c hlen hp hc
    match p with
    | [] =>
      cases hc with
      | red hl hr =>
        exact ⟨_, m + 1, rfl, Bal.black hl hr,
          by simp [plug, RTree.set_black, RTree.inorder]⟩
    | ⟨ed, Col.black, ek, ev, es⟩ :: ps =>
      -- case 2: parent black, the tree is already valid
      cases hp with
      | blackE _ _ _ hs hp2 =>
        refine ⟨plug (⟨ed, Col.black, ek, ev, es⟩ :: ps) cur, n0,
          by unfold insFix; rfl, ?_, rfl⟩
        cases ed with
        | l => simpa only [plug] using Bal.fillExact hp2 (Bal.black hc hs)
        | r => simpa only [plug] using Bal.fillExact hp2 (Bal.black hs hc)
    | ⟨ed, Col.red, ek, ev, es⟩ :: ps =>
      cases hp with
      | redE _ _ _ hes hp2 =>
        match ps, hp2 with
        | ⟨gd, gc, gk, gv, gs⟩ :: p2, hp2 =>
          cases hp2 with
          | blackE _ _ _ hgs hp3 =>
            rename_i gsc
            by_cases hgb : gs.is_black = true
            · -- uncle black: the final rotation cases 4/5
              have hgsc : gsc = Col.black := Bal.black_of_is_black hgs hgb
              subst hgsc
              cases hc with
              | @red cl2 cr2 ck2 cv2 _ hcl hcr =>
                obtain ⟨hbal, hino⟩ :=
                  @insFixFinal_ok _ _ _ _ ck2 cv2
                    ⟨ed, Col.red, ek, ev, es⟩
                    ⟨gd, Col.black, gk, gv, gs⟩ _ hcl hcr hes hgs
                refine ⟨_, n0, ?_, Bal.fillExact hp3 hbal, ?_⟩
                · unfold insFix; simp [hgb]
                · rw [inorder_plug, hino, ← inorder_plug, ← plug_append]
                  rfl
            · -- uncle red: recolor and continue from the grandparent
              have hgsc : gsc = Col.red := Bal.red_of_not_black hgs hgb
              subst hgsc
              cases hgs with
              | red hga hgb2 =>
                rename_i ga gb gk2 gv2
                have hlen2 : p2.length ≤ N := by
                  simp only [List.length_cons] at hlen; omega
                have hmk : Bal (insFix.mkP (⟨ed, Col.red, ek, ev, es⟩ : PEnt K V) cur)
                    Col.black (m + 1) := by
                  cases ed with
                  | l => exact Bal.black hc hes
                  | r => exact Bal.black hes hc
                have hmkin : (insFix.mkP (⟨ed, Col.red, ek, ev, es⟩ : PEnt K V) cur).inorder
                    = (plug [⟨ed, Col.red, ek, ev, es⟩] cur).inorder := by
                  cases ed <;> simp [insFix.mkP, plug, RTree.inorder]
                cases gd with
                | l =>
                  obtain ⟨t2, n2, hok, hbal, hino⟩ := ih p2
                    (.node Col.red (insFix.mkP ⟨ed, Col.red, ek, ev, es⟩ cur)
                      gk gv (RTree.set_black (.node Col.red ga gk2 gv2 gb)))
                    hlen2 hp3
                    (Bal.red hmk (Bal.black hga hgb2))
                  have hstep : insFix (⟨ed, Col.red, ek, ev, es⟩ ::
                        ⟨Dir.l, Col.black, gk, gv, .node Col.red ga gk2 gv2 gb⟩ :: p2) cur
                      = insFix p2 (.node Col.red
                          (insFix.mkP ⟨ed, Col.red, ek, ev, es⟩ cur)
                          gk gv (RTree.set_black (.node Col.red ga gk2 gv2 gb))) := by
                    with_unfolding_all rfl
                  refine ⟨t2, n2, ?_, hbal, ?_⟩
                  · rw [hstep]
                    exact hok
                  · rw [hino]
                    rw [inorder_plug, inorder_plug]
                    have hmid : (RTree.node Col.red
                          (insFix.mkP (⟨ed, Col.red, ek, ev, es⟩ : PEnt K V) cur) gk gv
                          (RTree.set_black (.node Col.red ga gk2 gv2 gb))).inorder
                        = (plug [⟨ed, Col.red, ek, ev, es⟩,
                            ⟨Dir.l, Col.black, gk, gv, .node Col.red ga gk2 gv2 gb⟩]
                            cur).inorder := by
                      rw [show ([⟨ed, Col.red, ek, ev, es⟩,
                          ⟨Dir.l, Col.black, gk, gv, .node Col.red ga gk2 gv2 gb⟩] : Path K V)
                          = [⟨ed, Col.red, ek, ev, es⟩] ++
                            [⟨Dir.l, Col.black, gk, gv, .node Col.red ga gk2 gv2 gb⟩] from rfl,
                        plug_append]
                      simp only [plug, RTree.inorder, RTree.set_black]
                      rw [hmkin]
                      try simp [RTree.inorder]
                    rw [hmid, ← inorder_plug, ← inorder_plug, ← plug_append]
                    try simp
                | r =>
                  obtain ⟨t2, n2, hok, hbal, hino⟩ := ih p2
                    (.node Col.red (RTree.set_black (.node Col.red ga gk2 gv2 gb))
                      gk gv (insFix.mkP ⟨ed, Col.red, ek, ev, es⟩ cur))
                    hlen2 hp3
                    (Bal.red (Bal.black hga hgb2) hmk)
                  have hstep : insFix (⟨ed, Col.red, ek, ev, es⟩ ::
                        ⟨Dir.r, Col.black, gk, gv, .node Col.red ga gk2 gv2 gb⟩ :: p2) cur
                      = insFix p2 (.node Col.red
                          (RTree.set_black (.node Col.red ga gk2 gv2 gb))
                          gk gv (insFix.mkP ⟨ed, Col.red, ek, ev, es⟩ cur)) := by
                    with_unfolding_all rfl
                  refine ⟨t2, n2, ?_, hbal, ?_⟩
                  · rw [hstep]
                    exact hok
                  · rw [hino]
                    rw [inorder_plug, inorder_plug]
                    have hmid : (RTree.node Col.red
                          (RTree.set_black (.node Col.red ga gk2 gv2 gb)) gk gv
                          (insFix.mkP (⟨ed, Col.red, ek, ev, es⟩ : PEnt K V) cur)).inorder
                        = (plug [⟨ed, Col.red, ek, ev, es⟩,
                            ⟨Dir.r, Col.black, gk, gv, .node Col.red ga gk2 gv2 gb⟩]
                            cur).inorder := by
                      rw [show ([⟨ed, Col.red, ek, ev, es⟩,
                          ⟨Dir.r, Col.black, gk, gv, .node Col.red ga gk2 gv2 gb⟩] : Path K V)
                          = [⟨ed, Col.red, ek, ev, es⟩] ++
                            [⟨Dir.r, Col.black, gk, gv, .node Col.red ga gk2 gv2 gb⟩] from rfl,
                        plug_append]
                      simp only [plug, RTree.inorder, RTree.set_black]
                      rw [hmkin]
                      try simp [RTree.inorder]
                    rw [hmid, ← inorder_plug, ← inorder_plug, ← plug_append]
                    try simp

/-! ## Top-level correctness of insert -/

/-- The structural skeleton: shape, colors, keys — with values erased. -/
def skel {K V : Type} : RTree K V → RTree K Unit
  | .nil => .nil
  | .node c l k _ r => .node c (skel l) k () (skel r)

/-- Path entry with the value erased. -/
def skelE {K V : Type} (e : PEnt K V) : PEnt K Unit :=
  ⟨e.d, e.c, e.k, (), skel e.sib⟩

theorem skel_plug {K V : Type} :
    ∀ (p : Path K V) (s : RTree K V),
      skel (plug p s) = plug (p.map skelE) (skel s) := by
  intro p
  induction p with
  | nil => intro s; rfl
  | cons e p ih =>
    intro s
    obtain ⟨d, c, k, v, sib⟩ := e
    cases d with
    | l => simp only [plug, List.map, skelE, ih, skel]
    | r => simp only [plug, List.map, skelE, ih, skel]

theorem get_of_mem {K V Q : Type} [LinearOrder Q] {pi : K → Q} {t : RTree K V}
    (hb : Bdd pi t none none) {k : K} {v : V} (hmem : (k, v) ∈ t.inorder) :
    get_key_valueT pi t (pi k) = some (k, v) := by
  rw [get_key_valueT_eq_lookupL t _ hb]
  obtain ⟨A, B, hAB⟩ := List.append_of_mem hmem
  have hpw := hb.pairwise
  rw [hAB] at hpw ⊢
  rw [List.pairwise_append] at hpw
  obtain ⟨_, _, hcross⟩ := hpw
  have hAne : ∀ x ∈ A, pi x.1 ≠ pi k := by
    intro x hx
    exact ne_of_lt (hcross x hx (k, v) (by simp))
  rw [lookupL_append_none _ _ _ (lookupL_none _ _ hAne)]
  simp [lookupL]

theorem lookup_none_of_removed {K V Q : Type} [LinearOrder Q] {pi : K → Q}
    {A B : List (K × V)} {x : K × V}
    (hpw : (A ++ x :: B).Pairwise (fun a b => pi a.1 < pi b.1)) :
    lookupL pi (A ++ B) (pi x.1) = none := by
  rw [List.pairwise_append] at hpw
  obtain ⟨_, hxB, hcross⟩ := hpw
  rw [List.pairwise_cons] at hxB
  refine lookupL_none _ _ ?_
  intro y hy
  rcases List.mem_append.1 hy with hy | hy
  · exact ne_of_lt (hcross y hy x (by simp))
  · exact ne_of_gt (hxB.1 y hy)

theorem insertT_new {K V Q : Type} [LinearOrder Q] {pi : K → Q} {t : RTree K V}
    {n0 : Nat} (k : K) (v : V)
    (hb : Bal t Col.black n0) (ho : Bdd pi t none none)
    (habs : contains_keyT pi t (pi k) = false) :
    ∃ t2 n2, insertT pi t k v = .ok (none, t2) ∧ Bal t2 Col.black n2 ∧
      Bdd pi t2 none none ∧ (k, v) ∈ t2.inorder ∧
      t2.size = t.size + 1 ∧
      get_key_valueT pi t2 (pi k) = some (k, v) := by
  rcases hf : findZip pi t (pi k) [] with ⟨p, f⟩
  have hfnil : f = RTree.nil := by
    rcases findZip_focus t (pi k) [] p f hf with h | ⟨c, l2, k2, v2, r2, rfl, hk⟩
    · exact h
    · exfalso
      unfold contains_keyT at habs
      rw [hf] at habs
      simp [RTree.is_nil] at habs
  subst hfnil
  obtain ⟨c2, n2x, hbf, hpb⟩ := findZip_bal t (pi k) [] p _ hb PathBal.nil hf
  cases hbf
  obtain ⟨lo2, hi2, hpB, hbdd2, hq1, hq2⟩ :=
    findZip_bdd t (pi k) [] p _ ho PathB.nil trivial trivial hf
  obtain ⟨t2, n2, hok, hbal, hino⟩ := insFix_ok p.length p
    (.node Col.red .nil k v .nil) (le_refl _) hpb (Bal.red Bal.nil Bal.nil)
  have hplugBdd : Bdd pi (plug p (.node Col.red .nil k v .nil)) none none :=
    PathB.fill hpB ⟨hq1, hq2, trivial, trivial⟩
  have hpw : t2.inorder.Pairwise (fun a b => pi a.1 < pi b.1) := by
    rw [hino]
    exact hplugBdd.pairwise
  have hbdd : Bdd pi t2 none none :=
    bdd_of_pairwise _ _ _ hpw (fun x _ => ⟨trivial, trivial⟩)
  have hmem : (k, v) ∈ t2.inorder := by
    rw [hino, inorder_plug]
    simp [RTree.inorder]
  have ht : plug p RTree.nil = t := findZip_plug t (pi k) [] p _ hf
  refine ⟨t2, n2, ?_, hbal, hbdd, hmem, ?_, get_of_mem hbdd hmem⟩
  · unfold insertT
    rw [hf]
    show (do
      let t2x ← insFix p (RTree.node Col.red RTree.nil k v RTree.nil)
      pure (none, t2x) : Except Unit (Option V × RTree K V)) = Except.ok (none, t2)
    rw [hok]
    rfl
  · rw [size_eq_inorder, size_eq_inorder, hino, inorder_plug, ← ht, inorder_plug]
    simp [RTree.inorder]
    omega

theorem insertT_upsert {K V Q : Type} [LinearOrder Q] {pi : K → Q} {t : RTree K V}
    {n0 : Nat} (k : K) (v : V) {p : Path K V} {c : Col} {l : RTree K V} {k0 : K}
    {v0 : V} {r : RTree K V}
    (hb : Bal t Col.black n0) (ho : Bdd pi t none none)
    (hf : findZip pi t (pi k) [] = (p, .node c l k0 v0 r)) :
    insertT pi t k v = .ok (some v0, plug p (.node c l k0 v r)) ∧
      Bal (plug p (.node c l k0 v r)) Col.black n0 ∧
      Bdd pi (plug p (.node c l k0 v r)) none none ∧
      get_key_valueT pi (plug p (.node c l k0 v r)) (pi k) = some (k0, v) ∧
      (plug p (.node c l k0 v r)).size = t.size ∧
      skel (plug p (.node c l k0 v r)) = skel t ∧ pi k0 = pi k := by
  have hk0 : pi k0 = pi k := by
    rcases findZip_focus t (pi k) [] p _ hf with h | ⟨c3, l3, k3, v3, r3, heq, hk⟩
    · exact absurd h (by simp)
    · cases heq; exact hk
  obtain ⟨c2, n2x, hbf, hpb⟩ := findZip_bal t (pi k) [] p _ hb PathBal.nil hf
  obtain ⟨lo2, hi2, hpB, hbdd2, hq1, hq2⟩ :=
    findZip_bdd t (pi k) [] p _ ho PathB.nil trivial trivial hf
  have ht : plug p (.node c l k0 v0 r) = t := findZip_plug t (pi k) [] p _ hf
  have hbal2 : Bal (RTree.node c l k0 v r) c2 n2x := by
    cases hbf with
    | red hl hr => exact Bal.red hl hr
    | black hl hr => exact Bal.black hl hr
  have hbddf : Bdd pi (RTree.node c l k0 v r) lo2 hi2 := by
    obtain ⟨b1, b2, b3, b4⟩ := hbdd2
    exact ⟨b1, b2, b3, b4⟩
  have hB : Bdd pi (plug p (.node c l k0 v r)) none none := PathB.fill hpB hbddf
  have hmem : (k0, v) ∈ (plug p (.node c l k0 v r)).inorder := by
    rw [inorder_plug]
    simp [RTree.inorder]
  refine ⟨?_, Bal.fillExact hpb hbal2, hB, ?_, ?_, ?_, hk0⟩
  · unfold insertT
    rw [hf]
  · rw [← hk0]
    exact get_of_mem hB hmem
  · rw [size_eq_inorder, size_eq_inorder, ← ht, inorder_plug, inorder_plug]
    simp [RTree.inorder]
  · rw [← ht, skel_plug, skel_plug]
    try rfl

/-! ## Correctness of the remove fixup -/

theorem delCases456_eq {K V : Type} (n : RTree K V) (ed : Dir) (pc : Col)
    (pk : K) (pv : V) (wc : Col) (wl : RTree K V) (wk : K) (wv : V)
    (wr : RTree K V) (p : Path K V) :
    delCases456 n ⟨ed, pc, pk, pv, .node wc wl wk wv wr⟩ p =
      (if pc = Col.red ∧ wc = Col.black ∧ wl.is_black = true ∧ wr.is_black = true then
        match ed with
        | .l => .ok (plug p (.node Col.black n pk pv (.node Col.red wl wk wv wr)))
        | .r => .ok (plug p (.node Col.black (.node Col.red wl wk wv wr) pk pv n))
      else
        match ed, delC5 ed wc wl wk wv wr with
        | .l, .node _ wl2 wk2 wv2 wr2 =>
          .ok (plug p (rotl (.node Col.black n pk pv (.node pc wl2 wk2 wv2 wr2.set_black))))
        | .r, .node _ wl2 wk2 wv2 wr2 =>
          .ok (plug p (rotr (.node Col.black (.node pc wl2.set_black wk2 wv2 wr2) pk pv n)))
        | _, .nil => .error ()) := by
  with_unfolding_all rfl

theorem delCases456_ok {K V : Type} {n wl wr : RTree K V} {wk : K} {wv : V}
    {cwl cwr : Col} {ed : Dir} {pc : Col} {pk : K} {pv : V} {p : Path K V}
    {n0 m : Nat}
    (hn : Bal n Col.black m)
    (hwl : Bal wl cwl m) (hwr : Bal wr cwr m)
    (hpath : (pc = Col.red ∧ PathBal p Col.black n0 Col.red (m + 1)) ∨
             (pc = Col.black ∧ PathBal p Col.black n0 Col.black (m + 2)))
    (hc3 : pc = Col.red ∨ cwl = Col.red ∨ cwr = Col.red) :
    ∃ t2, delCases456 n ⟨ed, pc, pk, pv, .node Col.black wl wk wv wr⟩ p = .ok t2 ∧
      Bal t2 Col.black n0 ∧
      t2.inorder =
        (plug (⟨ed, pc, pk, pv, .node Col.black wl wk wv wr⟩ :: p) n).inorder := by
  by_cases h4 : pc = Col.red ∧ (Col.black = Col.black) ∧
      wl.is_black = true ∧ wr.is_black = true
  · -- case 4
    obtain ⟨hpc, _, hbl, hbr⟩ := h4
    subst hpc
    rcases hpath with ⟨_, hp⟩ | ⟨habs, _⟩
    swap
    · exact absurd habs (by simp)
    have hcwl : cwl = Col.black := Bal.black_of_is_black hwl hbl
    have hcwr : cwr = Col.black := Bal.black_of_is_black hwr hbr
    subst hcwl; subst hcwr
    cases ed with
    | l =>
      refine ⟨plug p (.node Col.black n pk pv (.node Col.red wl wk wv wr)), ?_, ?_, ?_⟩
      · rw [delCases456_eq, if_pos ⟨rfl, rfl, hbl, hbr⟩]
      · exact Bal.fillBlack hp (Bal.black hn (Bal.red hwl hwr))
      · rw [inorder_plug, inorder_plug]
        simp [plug, RTree.inorder, leftL, rightL, List.append_assoc]
    | r =>
      refine ⟨plug p (.node Col.black (.node Col.red wl wk wv wr) pk pv n), ?_, ?_, ?_⟩
      · rw [delCases456_eq, if_pos ⟨rfl, rfl, hbl, hbr⟩]
      · exact Bal.fillBlack hp (Bal.black (Bal.red hwl hwr) hn)
      · rw [inorder_plug, inorder_plug]
        simp [plug, RTree.inorder, leftL, rightL, List.append_assoc]
  · -- cases 5 and 6
    have hfill : ∀ (A B : RTree K V) (k2 : K) (v2 : V),
        Bal A Col.black (m + 1) → Bal B Col.black (m + 1) →
        Bal (plug p (.node pc A k2 v2 B)) Col.black n0 := by
      intro A B k2 v2 hA hB
      rcases hpath with ⟨hpc, hp⟩ | ⟨hpc, hp⟩ <;> subst hpc
      · exact Bal.fillExact hp (Bal.red hA hB)
      · exact Bal.fillExact hp (Bal.black hA hB)
    have hred : cwl = Col.red ∨ cwr = Col.red := by
      rcases hc3 with hpc | h | h
      · subst hpc
        by_cases hbl : wl.is_black = true
        · by_cases hbr : wr.is_black = true
          · exact absurd ⟨rfl, rfl, hbl, hbr⟩ h4
          · exact Or.inr (Bal.red_of_not_black hwr hbr)
        · exact Or.inl (Bal.red_of_not_black hwl hbl)
      · exact Or.inl h
      · exact Or.inr h
    cases ed with
    | l =>
      by_cases hbr : wr.is_black = true
      · -- far child black, so the near child is red: case 5 then case 6
        have hcwr : cwr = Col.black := Bal.black_of_is_black hwr hbr
        have hcwl : cwl = Col.red := by
          rcases hred with h | h
          · exact h
          · rw [h] at hcwr; exact absurd hcwr (by simp)
        subst hcwl
        cases hwl with
        | red ha hb =>
          rename_i a b ax av
          have hC5 : delC5 Dir.l Col.black (.node Col.red a ax av b) wk wv wr
              = .node Col.black a ax av (.node Col.red b wk wv wr) := by
            unfold delC5
            rw [if_pos ⟨rfl, rfl, hbr, rfl⟩]
            rfl
          refine ⟨plug p (.node pc (.node Col.black n pk pv a) ax av
            (.node Col.black b wk wv wr)), ?_, ?_, ?_⟩
          · rw [delCases456_eq, if_neg h4, hC5]
            rfl
          · exact hfill _ _ _ _ (Bal.black hn ha) (Bal.black hb hwr)
          · rw [inorder_plug, inorder_plug]
            simp [plug, RTree.inorder, leftL, rightL, List.append_assoc]
      · -- far child red: case 6 directly
        have hcwr : cwr = Col.red := Bal.red_of_not_black hwr hbr
        subst hcwr
        cases hwr with
        | red he hf =>
          rename_i e2 f2 ex ev2
          have hC5 : delC5 Dir.l Col.black wl wk wv (.node Col.red e2 ex ev2 f2)
              = .node Col.black wl wk wv (.node Col.red e2 ex ev2 f2) := by
            unfold delC5
            rw [if_neg (by rintro ⟨_, _, hcon, _⟩; simp [RTree.is_black] at hcon),
              if_neg (by rintro ⟨_, hcon, _⟩; exact absurd hcon (by simp))]
          refine ⟨plug p (.node pc (.node Col.black n pk pv wl) wk wv
            (.node Col.black e2 ex ev2 f2)), ?_, ?_, ?_⟩
          · rw [delCases456_eq, if_neg h4, hC5]
            rfl
          · exact hfill _ _ _ _ (Bal.black hn hwl) (Bal.black he hf)
          · rw [inorder_plug, inorder_plug]
            simp [plug, RTree.inorder, leftL, rightL, List.append_assoc]
    | r =>
      by_cases hbl : wl.is_black = true
      · -- far child black, so the near child is red: case 5 then case 6
        have hcwl : cwl = Col.black := Bal.black_of_is_black hwl hbl
        have hcwr : cwr = Col.red := by
          rcases hred with h | h
          · rw [h] at hcwl; exact absurd hcwl (by simp)
          · exact h
        subst hcwr
        cases hwr with
        | red he hf =>
          rename_i e2 f2 ex ev2
          have hC5 : delC5 Dir.r Col.black wl wk wv (.node Col.red e2 ex ev2 f2)
              = .node Col.black (.node Col.red wl wk wv e2) ex ev2 f2 := by
            unfold delC5
            rw [if_neg (by rintro ⟨_, hcon, _⟩; exact absurd hcon (by simp)),
              if_pos ⟨rfl, rfl, hbl, rfl⟩]
            rfl
          refine ⟨plug p (.node pc (.node Col.black wl wk wv e2) ex ev2
            (.node Col.black f2 pk pv n)), ?_, ?_, ?_⟩
          · rw [delCases456_eq, if_neg h4, hC5]
            rfl
          · exact hfill _ _ _ _ (Bal.black hwl he) (Bal.black hf hn)
          · rw [inorder_plug, inorder_plug]
            simp [plug, RTree.inorder, leftL, rightL, List.append_assoc]
      · -- far child red: case 6 directly
        have hcwl : cwl = Col.red := Bal.red_of_not_black hwl hbl
        subst hcwl
        cases hwl with
        | red ha hb =>
          rename_i a b ax av
          have hC5 : delC5 Dir.r Col.black (.node Col.red a ax av b) wk wv wr
              = .node Col.black (.node Col.red a ax av b) wk wv wr := by
            unfold delC5
            rw [if_neg (by rintro ⟨_, hcon, _⟩; exact absurd hcon (by simp)),
              if_neg (by rintro ⟨_, _, hcon, _⟩; simp [RTree.is_black] at hcon)]
          refine ⟨plug p (.node pc (.node Col.black a ax av b) wk wv
            (.node Col.black wr pk pv n)), ?_, ?_, ?_⟩
          · rw [delCases456_eq, if_neg h4, hC5]
            rfl
          · exact hfill _ _ _ _ (Bal.black ha hb) (Bal.black hwr hn)
          · rw [inorder_plug, inorder_plug]
            simp [plug, RTree.inorder, leftL, rightL, List.append_assoc]

theorem delFix_cons_eq {K V : Type} (ed : Dir) (pc : Col) (pk : K) (pv : V)
    (wc : Col) (wl : RTree K V) (wk : K) (wv : V) (wr : RTree K V)
    (p : Path K V) (n : RTree K V) :
    delFix (⟨ed, pc, pk, pv, .node wc wl wk wv wr⟩ :: p) n =
      (if wc = Col.red then
         match ed with
         | .l => delCases456 n ⟨.l, Col.red, pk, pv, wl⟩
             (⟨.l, Col.black, wk, wv, wr⟩ :: p)
         | .r => delCases456 n ⟨.r, Col.red, pk, pv, wr⟩
             (⟨.r, Col.black, wk, wv, wl⟩ :: p)
       else if pc = Col.black ∧ wl.is_black = true ∧ wr.is_black = true then
         match ed with
         | .l => delFix p (.node Col.black n pk pv (.node Col.red wl wk wv wr))
         | .r => delFix p (.node Col.black (.node Col.red wl wk wv wr) pk pv n)
       else delCases456 n ⟨ed, pc, pk, pv, .node wc wl wk wv wr⟩ p) := by
  with_unfolding_all rfl

theorem delFix_ok {K V : Type} :
    ∀ (p : Path K V) (n : RTree K V) {n0 m : Nat},
      PathBal p Col.black n0 Col.black (m + 1) → Bal n Col.black m →
      ∃ t2 n2, delFix p n = .ok t2 ∧ Bal t2 Col.black n2 ∧
        t2.inorder = (plug p n).inorder := by
  intro p
  induction p with
  | nil =>
    intro n n0 m hp hn
    exact ⟨n, m, rfl, hn, rfl⟩
  | cons e p ih =>
    intro n n0 m hp hn
    obtain ⟨ed, pc, pk, pv, sib⟩ := e
    cases hp with
    | redE _ _ _ hs hp2 =>
      -- red parent; sibling is black of height m+1, hence a black node
      cases hs with
      | black hwl hwr =>
        rename_i wl wr wk wv cwl cwr
        obtain ⟨t2, hok, hbal, hino⟩ := delCases456_ok hn hwl hwr
          (Or.inl ⟨rfl, hp2⟩) (Or.inl rfl)
        refine ⟨t2, n0, ?_, hbal, hino⟩
        rw [delFix_cons_eq]
        rw [if_neg (by simp), if_neg (by simp)]
        exact hok
    | blackE _ _ _ hs hp2 =>
      rename_i cs
      cases cs with
      | red =>
        -- case 2: red sibling
        cases hs with
        | red hwl hwr =>
          rename_i W1 W2 wk wv
          cases ed with
          | l =>
            cases hwl with
            | black hu1 hu2 =>
              rename_i u1 u2 uk uv cu1 cu2
              obtain ⟨t2, hok, hbal, hino⟩ := @delCases456_ok _ _ _ _ _ _ _ _ _ _ _ _ _
                (⟨.l, Col.black, wk, wv, W2⟩ :: p) _ _ hn hu1 hu2
                (Or.inl ⟨rfl, PathBal.blackE _ wk wv hwr hp2⟩) (Or.inl rfl)
              refine ⟨t2, n0, ?_, hbal, ?_⟩
              · rw [delFix_cons_eq]
                rw [if_pos rfl]
                exact hok
              · rw [hino, inorder_plug, inorder_plug]
                simp [plug, RTree.inorder, leftL, rightL, List.append_assoc]
          | r =>
            cases hwr with
            | black hu1 hu2 =>
              rename_i u1 u2 uk uv cu1 cu2
              obtain ⟨t2, hok, hbal, hino⟩ := @delCases456_ok _ _ _ _ _ _ _ _ _ _ _ _ _
                (⟨.r, Col.black, wk, wv, W1⟩ :: p) _ _ hn hu1 hu2
                (Or.inl ⟨rfl, PathBal.blackE _ wk wv hwl hp2⟩) (Or.inl rfl)
              refine ⟨t2, n0, ?_, hbal, ?_⟩
              · rw [delFix_cons_eq]
                rw [if_pos rfl]
                exact hok
              · rw [hino, inorder_plug, inorder_plug]
                simp [plug, RTree.inorder, leftL, rightL, List.append_assoc]
      | black =>
        cases hs with
        | black hwl hwr =>
          rename_i wl wr wk wv cwl cwr
          by_cases h3 : cwl = Col.black ∧ cwr = Col.black
          · -- case 3: recolor the sibling red and move the deficiency up
            obtain ⟨hc1, hc2⟩ := h3
            subst hc1; subst hc2
            have hbl : wl.is_black = true := hwl.is_black_of_black
            have hbr : wr.is_black = true := hwr.is_black_of_black
            cases ed with
            | l =>
              obtain ⟨t2, n2, hok, hbal, hino⟩ := ih
                (.node Col.black n pk pv (.node Col.red wl wk wv wr))
                hp2 (Bal.black hn (Bal.red hwl hwr))
              refine ⟨t2, n2, ?_, hbal, ?_⟩
              · rw [delFix_cons_eq]
                rw [if_neg (by simp), if_pos ⟨rfl, hbl, hbr⟩]
                exact hok
              · rw [hino, inorder_plug, inorder_plug]
                simp [plug, RTree.inorder, leftL, rightL, List.append_assoc]
            | r =>
              obtain ⟨t2, n2, hok, hbal, hino⟩ := ih
                (.node Col.black (.node Col.red wl wk wv wr) pk pv n)
                hp2 (Bal.black (Bal.red hwl hwr) hn)
              refine ⟨t2, n2, ?_, hbal, ?_⟩
              · rw [delFix_cons_eq]
                rw [if_neg (by simp), if_pos ⟨rfl, hbl, hbr⟩]
                exact hok
              · rw [hino, inorder_plug, inorder_plug]
                simp [plug, RTree.inorder, leftL, rightL, List.append_assoc]
          · -- break to cases 4-6
            have hc3 : cwl = Col.red ∨ cwr = Col.red := by
              cases cwl <;> cases cwr <;> simp at h3 ⊢
            obtain ⟨t2, hok, hbal, hino⟩ := delCases456_ok hn hwl hwr
              (Or.inr ⟨rfl, hp2⟩) (Or.inr hc3)
            refine ⟨t2, n0, ?_, hbal, hino⟩
            rw [delFix_cons_eq]
            rw [if_neg (by simp), if_neg ?hneg]
            case hneg =>
              rintro ⟨_, h1, h2⟩
              exact h3 ⟨Bal.black_of_is_black hwl h1, Bal.black_of_is_black hwr h2⟩
            exact hok

theorem pairwise_removed {α : Type} {R : α → α → Prop} {A B : List α} {x : α}
    (h : (A ++ x :: B).Pairwise R) : (A ++ B).Pairwise R := by
  refine List.Pairwise.sublist ?_ h
  exact List.Sublist.append_left (List.sublist_cons_self x B) A

theorem detach_ok {K V : Type} {p : Path K V} {cR : Col} {child : RTree K V}
    {ret : Option (K × V)} {n0 nm : Nat} {k2 : K} {v2 : V}
    (hp : PathBal p Col.black n0 cR nm)
    (hX : Bal (.node cR .nil k2 v2 child) cR nm ∨
          Bal (.node cR child k2 v2 .nil) cR nm) :
    ∃ t2 n2, detach p cR child ret = .ok (ret, t2) ∧ Bal t2 Col.black n2 ∧
      t2.inorder = (plug p child).inorder := by
  have hfacts : (cR = Col.red ∧ child = RTree.nil ∧ nm = 0) ∨
      (cR = Col.black ∧ nm = 1 ∧ ∃ cc, Bal child cc 0) := by
    rcases hX with hX | hX
    · cases hX with
      | red h1 h2 =>
        cases h1
        cases h2
        exact Or.inl ⟨rfl, rfl, rfl⟩
      | black h1 h2 =>
        cases h1
        exact Or.inr ⟨rfl, rfl, _, h2⟩
    · cases hX with
      | red h1 h2 =>
        cases h2
        cases h1
        exact Or.inl ⟨rfl, rfl, rfl⟩
      | black h1 h2 =>
        cases h2
        exact Or.inr ⟨rfl, rfl, _, h1⟩
  rcases hfacts with ⟨rfl, rfl, rfl⟩ | ⟨rfl, rfl, cc, hcc⟩
  · -- the physically removed node was red: no fixup
    exact ⟨plug p RTree.nil, n0, rfl, Bal.fillBlack hp Bal.nil, rfl⟩
  · cases cc with
    | black =>
      -- black child of height 0 is the sentinel: run the fixup loop
      cases hcc
      obtain ⟨t2, n2, hok, hbal, hino⟩ := delFix_ok p RTree.nil hp Bal.nil
      refine ⟨t2, n2, ?_, hbal, hino⟩
      show (do
        let t2x ← delFix p RTree.nil
        pure (ret, t2x) : Except Unit (Option (K × V) × RTree K V)) = .ok (ret, t2)
      rw [hok]
      rfl
    | red =>
      -- red child: recolor it black
      cases hcc with
      | red ha hb =>
        rename_i a b x y
        refine ⟨plug p (.node Col.black a x y b), n0, rfl,
          Bal.fillExact hp (Bal.black ha hb), ?_⟩
        rw [inorder_plug, inorder_plug]
        simp [RTree.inorder]

theorem removeEntryT_found_eq {K V Q : Type} [LinearOrder Q] {pi : K → Q}
    (t : RTree K V) (q : Q) {p : Path K V} {tc : Col} {tl : RTree K V}
    {tk : K} {tv : V} {tr : RTree K V}
    (hf : findZip pi t q [] = (p, .node tc tl tk tv tr)) :
    removeEntryT pi t q =
      (match minZip tr with
       | (_, .nil) => detach p tc (if tl.is_nil then tr else tl) (some (tk, tv))
       | (pm, .node mc ml mk mv mr) =>
          detach (pm ++ ⟨.r, tc, mk, mv, tl⟩ :: p) mc (if ml.is_nil then mr else ml)
            (some (tk, tv))) := by
  unfold removeEntryT
  rw [hf]

theorem removeEntryT_splice_part {K V Q : Type} [LinearOrder Q] {pi : K → Q}
    {t : RTree K V} {q : Q} {p pm : Path K V} {tc : Col} {tl : RTree K V}
    {tk : K} {tv : V} {tr : RTree K V} {mc : Col} {mk : K} {mv : V}
    {mr : RTree K V} {n0 nmm : Nat}
    (ho : Bdd pi t none none)
    (ht : plug p (.node tc tl tk tv tr) = t)
    (hm : minZip tr = (pm, .node mc .nil mk mv mr))
    (hpfull : PathBal (pm ++ ⟨Dir.r, tc, mk, mv, tl⟩ :: p) Col.black n0 mc nmm)
    (hmBal : Bal (.node mc .nil mk mv mr) mc nmm)
    (htk : pi tk = q) :
    ∃ t2 n2 A B,
      detach (pm ++ ⟨Dir.r, tc, mk, mv, tl⟩ :: p) mc mr (some (tk, tv)) =
        .ok (some (tk, tv), t2) ∧
      Bal t2 Col.black n2 ∧ Bdd pi t2 none none ∧
      t.inorder = A ++ (tk, tv) :: B ∧ t2.inorder = A ++ B ∧ pi tk = q := by
  obtain ⟨t2, n2, hok, hbal, hino⟩ :=
    @detach_ok _ _ _ _ _ (some (tk, tv)) _ _ _ _ hpfull (Or.inl hmBal)
  have hpm1 : (minZip tr).1 = pm := by rw [hm]
  have hLpm : leftL pm = [] := by rw [← hpm1]; exact minZip_leftL tr
  have htr : tr = plug pm (.node mc .nil mk mv mr) := (minZip_plug tr pm _ hm).symm
  have htrIn : tr.inorder = (mk, mv) :: (mr.inorder ++ rightL pm) := by
    conv_lhs => rw [htr]
    rw [inorder_plug, hLpm]
    simp [RTree.inorder]
  have hIn1 : t.inorder = (leftL p ++ tl.inorder) ++ (tk, tv) :: (tr.inorder ++ rightL p) := by
    rw [← ht, inorder_plug]
    simp [RTree.inorder, List.append_assoc]
  have hIn2 : t2.inorder = (leftL p ++ tl.inorder) ++ (tr.inorder ++ rightL p) := by
    rw [hino, plug_append, inorder_plug, inorder_plug, hLpm, htrIn]
    simp [leftL, rightL, RTree.inorder, List.append_assoc]
  have hBdd2 : Bdd pi t2 none none := by
    have hpw := ho.pairwise
    rw [hIn1] at hpw
    refine bdd_of_pairwise _ _ _ ?_ (fun x _ => ⟨trivial, trivial⟩)
    rw [hIn2]
    exact pairwise_removed hpw
  exact ⟨t2, n2, _, _, hok, hbal, hBdd2, hIn1, hIn2, htk⟩

theorem removeEntryT_found {K V Q : Type} [LinearOrder Q] {pi : K → Q}
    {t : RTree K V} {n0 : Nat} {q : Q} {p : Path K V} {tc : Col}
    {tl : RTree K V} {tk : K} {tv : V} {tr : RTree K V}
    (hb : Bal t Col.black n0) (ho : Bdd pi t none none)
    (hf : findZip pi t q [] = (p, .node tc tl tk tv tr)) :
    ∃ t2 n2 A B, removeEntryT pi t q = .ok (some (tk, tv), t2) ∧
      Bal t2 Col.black n2 ∧ Bdd pi t2 none none ∧
      t.inorder = A ++ (tk, tv) :: B ∧ t2.inorder = A ++ B ∧ pi tk = q := by
  have htk : pi tk = q := by
    rcases findZip_focus t q [] p _ hf with h | ⟨c3, l3, k3, v3, r3, heq, hk⟩
    · exact absurd h (by simp)
    · cases heq; exact hk
  have ht : plug p (.node tc tl tk tv tr) = t := findZip_plug t q [] p _ hf
  obtain ⟨ct, nt, hbt, hpb⟩ := findZip_bal t q [] p _ hb PathBal.nil hf
  have hBdd : ∀ (t2 : RTree K V) (A B : List (K × V)),
      t.inorder = A ++ (tk, tv) :: B → t2.inorder = A ++ B →
      Bdd pi t2 none none := by
    intro t2 A B h1 h2
    have hpw := ho.pairwise
    rw [h1] at hpw
    refine bdd_of_pairwise _ _ _ ?_ (fun x _ => ⟨trivial, trivial⟩)
    rw [h2]
    exact pairwise_removed hpw
  rw [removeEntryT_found_eq t q hf]
  rcases hm : minZip tr with ⟨pm, mfoc⟩
  cases mfoc with
  | nil =>
    have htr : tr = RTree.nil := minZip_nil tr pm hm
    subst htr
    cases hbt with
    | red h1 h2 =>
      cases h2
      cases h1
      obtain ⟨t2, n2, hok, hbal, hino⟩ :=
        @detach_ok _ _ _ _ _ (some (tk, tv)) _ _ tk tv hpb
          (Or.inl (Bal.red Bal.nil Bal.nil))
      have hIn1 : t.inorder = leftL p ++ (tk, tv) :: rightL p := by
        rw [← ht, inorder_plug]
        simp [RTree.inorder]
      have hIn2 : t2.inorder = leftL p ++ rightL p := by
        rw [hino, inorder_plug]
        simp [RTree.inorder]
      exact ⟨t2, n2, leftL p, rightL p, hok, hbal, hBdd t2 _ _ hIn1 hIn2,
        hIn1, hIn2, htk⟩
    | black h1 h2 =>
      cases h2
      rename_i cl
      cases cl with
      | black =>
        cases h1
        obtain ⟨t2, n2, hok, hbal, hino⟩ :=
          @detach_ok _ _ _ _ _ (some (tk, tv)) _ _ tk tv hpb
            (Or.inl (Bal.black Bal.nil Bal.nil))
        have hIn1 : t.inorder = leftL p ++ (tk, tv) :: rightL p := by
          rw [← ht, inorder_plug]
          simp [RTree.inorder]
        have hIn2 : t2.inorder = leftL p ++ rightL p := by
          rw [hino, inorder_plug]
          simp [RTree.inorder]
        exact ⟨t2, n2, leftL p, rightL p, hok, hbal, hBdd t2 _ _ hIn1 hIn2,
          hIn1, hIn2, htk⟩
      | red =>
        cases h1 with
        | red ha hb2 =>
          rename_i a b x y
          obtain ⟨t2, n2, hok, hbal, hino⟩ :=
            @detach_ok _ _ _ _ _ (some (tk, tv)) _ _ tk tv hpb
              (Or.inr (Bal.black (Bal.red ha hb2) Bal.nil))
          have hIn1 : t.inorder =
              (leftL p ++ (RTree.node Col.red a x y b).inorder) ++ (tk, tv) :: rightL p := by
            rw [← ht, inorder_plug]
            simp [RTree.inorder, List.append_assoc]
          have hIn2 : t2.inorder =
              (leftL p ++ (RTree.node Col.red a x y b).inorder) ++ rightL p := by
            rw [hino, inorder_plug]
            try simp [RTree.inorder, List.append_assoc]
          exact ⟨t2, n2, _, _, hok, hbal, hBdd t2 _ _ hIn1 hIn2, hIn1, hIn2, htk⟩
  | node mc ml mk mv mr =>
    have hml : ml = RTree.nil := minZip_left_nil tr pm mc ml mk mv mr hm
    subst hml
    cases hbt with
    | red h1 h2 =>
      obtain ⟨cm, nmm, hmBal, hpmBal⟩ := minZip_bal tr pm _ h2 hm
      have hcmeq : cm = mc := by cases hmBal <;> rfl
      subst hcmeq
      have hpfull : PathBal (pm ++ ⟨Dir.r, Col.red, mk, mv, tl⟩ :: p)
          Col.black n0 cm nmm :=
        PathBal.append hpmBal (PathBal.redE Dir.r mk mv h1 hpb)
      exact removeEntryT_splice_part ho ht hm hpfull hmBal htk
    | black h1 h2 =>
      rename_i cl cr
      obtain ⟨cm, nmm, hmBal, hpmBal⟩ := minZip_bal tr pm _ h2 hm
      have hcmeq : cm = mc := by cases hmBal <;> rfl
      subst hcmeq
      have hpfull : PathBal (pm ++ ⟨Dir.r, Col.black, mk, mv, tl⟩ :: p)
          Col.black n0 cm nmm :=
        PathBal.append hpmBal (PathBal.blackE Dir.r mk mv h1 hpb)
      exact removeEntryT_splice_part ho ht hm hpfull hmBal htk

/-! ## The iteration engine yields exactly the in-order sequence -/

theorem consume_node {K V : Type} (c : Col) (l : RTree K V) (k : K) (v : V)
    (r : RTree K V) (st : List (RTree K V)) :
    consume (.node c l k v r) st = consume l (.node c l k v r :: st) := by
  rw [consume, consume]
  rfl

theorem consume_nil_nil {K V : Type} : consume (RTree.nil : RTree K V) [] = [] := by
  rw [consume]
  rfl

theorem consume_nil_cons {K V : Type} (c : Col) (l : RTree K V) (k : K) (v : V)
    (r : RTree K V) (rest : List (RTree K V)) :
    consume (RTree.nil : RTree K V) (.node c l k v r :: rest) =
      (k, v) :: consume r rest := by
  rw [consume]
  rfl

theorem consume_nil_cons_nil {K V : Type} (rest : List (RTree K V)) :
    consume (RTree.nil : RTree K V) (.nil :: rest) = consume .nil rest := by
  rw [consume]
  rfl

/-- What one stack entry still owes the iteration: the entry itself
and its right subtree. -/
def restOf {K V : Type} : RTree K V → List (K × V)
  | .nil => []
  | .node _ _ k v r => (k, v) :: r.inorder

theorem stackW_zero {K V : Type} :
    ∀ (st : List (RTree K V)), stackW st = 0 → st = [] := by
  intro st h
  cases st with
  | nil => rfl
  | cons nd rest =>
    exfalso
    cases nd <;> simp [stackW, entW] at h

theorem consume_spec {K V : Type} :
    ∀ (N : Nat) (cur : RTree K V) (st : List (RTree K V)),
      cur.size + stackW st ≤ N →
      consume cur st = cur.inorder ++ st.flatMap restOf := by
  intro N
  induction N with
  | zero =>
    intro cur st h
    have h2 : stackW st = 0 := by omega
    have hst : st = [] := stackW_zero st h2
    subst hst
    cases cur with
    | nil => simp [consume_nil_nil, RTree.inorder]
    | node c l k v r =>
      exfalso
      simp [RTree.size, stackW] at h
  | succ N ih =>
    intro cur st h
    induction cur generalizing st with
    | nil =>
      cases st with
      | nil => simp [consume_nil_nil, RTree.inorder]
      | cons nd rest =>
        cases nd with
        | nil =>
          rw [consume_nil_cons_nil]
          rw [ih .nil rest (by simp [RTree.size, stackW, entW] at h ⊢; omega)]
          simp [RTree.inorder, restOf]
        | node c l k v r =>
          rw [consume_nil_cons]
          rw [ih r rest (by simp [RTree.size, stackW, entW] at h ⊢; omega)]
          simp [RTree.inorder, restOf]
    | node c l k v r ihl ihr =>
      rw [consume_node]
      rw [ihl (.node c l k v r :: st)
        (by simp [RTree.size, stackW, entW] at h ⊢; omega)]
      simp [RTree.inorder, restOf, List.append_assoc]

theorem iterPairs_eq_inorder {K V : Type} (t : Tr K V) :
    iterPairs t = t.root.inorder := by
  unfold iterPairs
  rw [consume_spec (t.root.size) t.root [] (by simp [stackW])]
  simp

/-! ## Container-level invariant and reachable states -/

section ContainerInv

variable {K V Q : Type} [LinearOrder Q]

/-- The representation invariant of a container: a balanced,
black-rooted, correctly ordered tree whose stored `len` counts its
real nodes. -/
def Inv (pi : K → Q) (t : Tr K V) : Prop :=
  (∃ n, Bal t.root Col.black n) ∧ Bdd pi t.root none none ∧ t.len = t.root.size

theorem insertM_ok {pi : K → Q} {t : Tr K V} (hI : Inv pi t) (k : K) (v : V) :
    ∃ r t2, insertM pi t k v = .ok (r, t2) ∧ Inv pi t2 ∧
      getT pi t2.root (pi k) = some v ∧
      (r = none → lenM t2 = lenM t + 1 ∧ contains_keyT pi t.root (pi k) = false ∧
        get_key_valueT pi t2.root (pi k) = some (k, v)) ∧
      (∀ v0, r = some v0 → lenM t2 = lenM t ∧ getT pi t.root (pi k) = some v0 ∧
        skel t2.root = skel t.root ∧
        (∀ k0 w0, get_key_valueT pi t.root (pi k) = some (k0, w0) →
          get_key_valueT pi t2.root (pi k) = some (k0, v))) := by
  obtain ⟨⟨n, hb⟩, ho, hlen⟩ := hI
  rcases hfz : findZip pi t.root (pi k) [] with ⟨p, f⟩
  cases f with
  | nil =>
    have habs : contains_keyT pi t.root (pi k) = false := by
      unfold contains_keyT
      rw [hfz]
      rfl
    obtain ⟨t2r, n2, hokT, hbal, hbdd, hmem, hsize, hgkv⟩ :=
      insertT_new k v hb ho habs
    refine ⟨none, ⟨t2r, t.len + 1⟩, ?_, ⟨⟨n2, hbal⟩, hbdd, ?_⟩, ?_, ?_, ?_⟩
    · unfold insertM
      rw [hokT]
    · simp [hsize, hlen]
    · rw [getT_eq_get_key_valueT, hgkv]
      rfl
    · intro _
      exact ⟨rfl, habs, hgkv⟩
    · intro v0 hcon
      exact absurd hcon (by simp)
  | node tc tl tk tv tr =>
    obtain ⟨hokT, hbal, hbdd, hgkv, hsize, hskel, hk0⟩ :=
      insertT_upsert k v hb ho hfz
    refine ⟨some tv, ⟨plug p (.node tc tl tk v tr), t.len⟩, ?_,
      ⟨⟨n, hbal⟩, hbdd, ?_⟩, ?_, ?_, ?_⟩
    · unfold insertM
      rw [hokT]
    · simp [hsize, hlen]
    · rw [getT_eq_get_key_valueT, hgkv]
      rfl
    · intro hcon
      exact absurd hcon (by simp)
    · intro v0 hv0
      obtain rfl : tv = v0 := by
        cases hv0
        rfl
      refine ⟨rfl, ?_, hskel, ?_⟩
      · rw [getT_eq_get_key_valueT]
        unfold get_key_valueT
        rw [hfz]
        rfl
      · intro k0 w0 hk0w0
        have : get_key_valueT pi t.root (pi k) = some (tk, tv) := by
          unfold get_key_valueT
          rw [hfz]
        rw [this] at hk0w0
        cases hk0w0
        exact hgkv

theorem removeEntryM_ok {pi : K → Q} {t : Tr K V} (hI : Inv pi t) (q : Q) :
    ∃ r t2, removeEntryM pi t q = .ok (r, t2) ∧ Inv pi t2 ∧
      (r = none → t2 = t ∧ contains_keyT pi t.root q = false) ∧
      (∀ k0 v0, r = some (k0, v0) → pi k0 = q ∧
        get_key_valueT pi t.root q = some (k0, v0) ∧
        contains_keyT pi t2.root q = false ∧ lenM t2 + 1 = lenM t) := by
  obtain ⟨⟨n, hb⟩, ho, hlen⟩ := hI
  rcases hfz : findZip pi t.root q [] with ⟨p, f⟩
  cases f with
  | nil =>
    have hT : removeEntryT pi t.root q = .ok (none, t.root) := by
      unfold removeEntryT
      rw [hfz]
    refine ⟨none, t, ?_, ⟨⟨n, hb⟩, ho, hlen⟩, ?_, ?_⟩
    · unfold removeEntryM
      rw [hT]
    · intro _
      refine ⟨rfl, ?_⟩
      unfold contains_keyT
      rw [hfz]
      rfl
    · intro k0 v0 hcon
      exact absurd hcon (by simp)
  | node tc tl tk tv tr =>
    obtain ⟨t2r, n2, A, B, hokT, hbal, hbdd, hIn1, hIn2, htk⟩ :=
      removeEntryT_found hb ho hfz
    have hsz1 : t.root.size = A.length + B.length + 1 := by
      rw [size_eq_inorder, hIn1]
      simp
      omega
    have hsz2 : t2r.size = A.length + B.length := by
      rw [size_eq_inorder, hIn2]
      simp
    refine ⟨some (tk, tv), ⟨t2r, t.len - 1⟩, ?_, ⟨⟨n2, hbal⟩, hbdd, ?_⟩, ?_, ?_⟩
    · unfold removeEntryM
      rw [hokT]
    · simp [lenM] at *
      omega
    · intro hcon
      exact absurd hcon (by simp)
    · intro k0 v0 hk0v0
      have hk0 : k0 = tk ∧ v0 = tv := by
        cases hk0v0
        exact ⟨rfl, rfl⟩
      obtain ⟨rfl, rfl⟩ := hk0
      refine ⟨htk, ?_, ?_, ?_⟩
      · unfold get_key_valueT
        rw [hfz]
      · rw [contains_keyT_eq, get_key_valueT_eq_lookupL t2r q hbdd, hIn2]
        have hpw := ho.pairwise
        rw [hIn1] at hpw
        rw [← htk]
        rw [lookup_none_of_removed hpw]
        rfl
      · simp [lenM]
        omega

theorem removeM_ok {pi : K → Q} {t : Tr K V} (hI : Inv pi t) (q : Q) :
    ∃ r t2, removeM pi t q = .ok (r, t2) ∧ Inv pi t2 ∧
      (r = none → t2 = t ∧ contains_keyT pi t.root q = false) ∧
      (∀ v0, r = some v0 → getT pi t.root q = some v0 ∧
        contains_keyT pi t2.root q = false ∧ lenM t2 + 1 = lenM t) := by
  obtain ⟨r, t2, hok, hI2, hnone, hsome⟩ := removeEntryM_ok hI q
  cases r with
  | none =>
    refine ⟨none, t2, ?_, hI2, fun _ => hnone rfl, ?_⟩
    · unfold removeM
      rw [hok]
    · intro v0 hcon
      exact absurd hcon (by simp)
  | some kv =>
    obtain ⟨k0, v0⟩ := kv
    obtain ⟨htk, hgkv, hcont, hlen⟩ := hsome k0 v0 rfl
    refine ⟨some v0, t2, ?_, hI2, ?_, ?_⟩
    · unfold removeM
      rw [hok]
    · intro hcon
      exact absurd hcon (by simp)
    · intro v1 hv1
      have : v1 = v0 := by
        cases hv1
        rfl
      subst this
      refine ⟨?_, hcont, hlen⟩
      rw [getT_eq_get_key_valueT, hgkv]
      rfl

/-- The container states reachable from `RbTree::new()` by the public
mutating operations. -/
inductive Reach (pi : K → Q) : Tr K V → Prop where
  | new : Reach pi (newM K V)
  | ins {t : Tr K V} {k : K} {v : V} {r : Option V} {t2 : Tr K V} :
      Reach pi t → insertM pi t k v = .ok (r, t2) → Reach pi t2
  | rem {t : Tr K V} {q : Q} {r : Option V} {t2 : Tr K V} :
      Reach pi t → removeM pi t q = .ok (r, t2) → Reach pi t2
  | remE {t : Tr K V} {q : Q} {r : Option (K × V)} {t2 : Tr K V} :
      Reach pi t → removeEntryM pi t q = .ok (r, t2) → Reach pi t2

theorem Reach.inv {pi : K → Q} {t : Tr K V} (h : Reach pi t) : Inv pi t := by
  induction h with
  | new => exact ⟨⟨0, Bal.nil⟩, trivial, rfl⟩
  | ins hr hok ih =>
    obtain ⟨r2, t3, hok2, hI2, _⟩ := insertM_ok ih _ _
    rw [hok2] at hok
    cases hok
    exact hI2
  | rem hr hok ih =>
    obtain ⟨r2, t3, hok2, hI2, _⟩ := removeM_ok ih _
    rw [hok2] at hok
    cases hok
    exact hI2
  | remE hr hok ih =>
    obtain ⟨r2, t3, hok2, hI2, _⟩ := removeEntryM_ok ih _
    rw [hok2] at hok
    cases hok
    exact hI2

end ContainerInv

/-! ## The raw node shape of the Rust representation (node.rs)

`RawNode` has `Option`al children; the implicit shape invariant is that
a non-sentinel node always has both children `Some` and a sentinel has
both `None` (node.rs:15-21, `RbNode::init` node.rs:107-120). `Raw`
mirrors that representation: a child slot may be absent. -/

/-- `RbNodeType` (node.rs:8-13). -/
inductive NodeTy : Type where
  | Red : NodeTy
  | Black : NodeTy
  | Nil : NodeTy
deriving DecidableEq, Repr

/-- A `RawNode` as the Rust stores it: a type tag, a possibly
uninitialized key/value slot, and two `Option`al child pointers
(`.none` = the `Option` is `None`). -/
inductive Raw (K V : Type) : Type where
  | none : Raw K V
  | node (ty : NodeTy) (kv : Option (K × V)) (l r : Raw K V) : Raw K V
deriving DecidableEq, Repr

/-- Is a child slot absent (`None` in the Rust struct)? -/
def Raw.isAbsent {K V : Type} : Raw K V → Bool
  | .none => true
  | .node _ _ _ _ => false

/-- The shape invariant claimed implicit in the code: a sentinel has no
children and an uninitialized key/value slot; a real node has an
initialized slot and both children present and themselves well formed.
An absent node is never well formed on its own. -/
def wfRaw {K V : Type} : Raw K V → Bool
  | .none => false
  | .node .Nil kv l r => kv.isNone && l.isAbsent && r.isAbsent
  | .node _ kv l r => kv.isSome && wfRaw l && wfRaw r

def colTy : Col → NodeTy
  | .red => .Red
  | .black => .Black

/-- The raw representation of an embedded tree: sentinels become `Nil`
nodes with absent children (exactly how `RbNode::new` + `init` build
them). -/
def toRaw {K V : Type} : RTree K V → Raw K V
  | .nil => .node .Nil none .none .none
  | .node c l k v r => .node (colTy c) (some (k, v)) (toRaw l) (toRaw r)

/-- `find_nearest_node` (mod.rs:348-372) on the raw representation,
with every partial operation explicit: descending into an absent child
is the `cur.left.unwrap()` / `cur.right.unwrap()` panic, and a
non-sentinel node with an uninitialized slot makes `cur.key()` read
uninitialized memory; both are `.error ()`. -/
def rawFind {K V Q : Type} [LinearOrder Q] (pi : K → Q) (q : Q) :
    Raw K V → Except Unit (Raw K V)
  | .none => .error ()
  | .node .Nil kv l r => .ok (.node .Nil kv l r)
  | .node ty none l r => .error ()
  | .node ty (some (k, v)) l r =>
    if q < pi k then rawFind pi q l
    else if pi k < q then rawFind pi q r
    else .ok (.node ty (some (k, v)) l r)

theorem toRaw_wf {K V : Type} : ∀ t : RTree K V, wfRaw (toRaw t) = true := by
  intro t
  induction t with
  | nil => rfl
  | node c l k v r ihl ihr =>
    cases c <;> simp [toRaw, wfRaw, colTy, ihl, ihr]

theorem rawFind_ok {K V Q : Type} [LinearOrder Q] (pi : K → Q) (q : Q) :
    ∀ r : Raw K V, wfRaw r = true → ∃ res, rawFind pi q r = .ok res := by
  intro r
  induction r with
  | none => intro h; exact absurd h (by simp [wfRaw])
  | node ty kv l r ihl ihr =>
    intro h
    cases ty with
    | Nil =>
      cases kv <;> exact ⟨.node .Nil _ l r, by with_unfolding_all rfl⟩
    | Red =>
      cases kv with
      | none => exact absurd h (by simp [wfRaw])
      | some kv0 =>
        obtain ⟨k0, v0⟩ := kv0
        have h2 : wfRaw l = true ∧ wfRaw r = true := by
          simpa [wfRaw, Bool.and_eq_true] using h
        simp only [rawFind]
        by_cases h1 : q < pi k0
        · simp only [if_pos h1]
          exact ihl h2.1
        · by_cases hgt : pi k0 < q
          · simp only [if_neg h1, if_pos hgt]
            exact ihr h2.2
          · exact ⟨_, by simp only [if_neg h1, if_neg hgt]; exact rfl⟩
    | Black =>
      cases kv with
      | none => exact absurd h (by simp [wfRaw])
      | some kv0 =>
        obtain ⟨k0, v0⟩ := kv0
        have h2 : wfRaw l = true ∧ wfRaw r = true := by
          simpa [wfRaw, Bool.and_eq_true] using h
        simp only [rawFind]
        by_cases h1 : q < pi k0
        · simp only [if_pos h1]
          exact ihl h2.1
        · by_cases hgt : pi k0 < q
          · simp only [if_neg h1, if_pos hgt]
            exact ihr h2.2
          · exact ⟨_, by simp only [if_neg h1, if_neg hgt]; exact rfl⟩

/-! # The claims -/

section Claims

variable {K V Q : Type} [LinearOrder Q]

/-- C1 (mod.rs:75-157 `insert`, mod.rs:172-345 `remove_entry`): in every
container state reachable from `new()` by inserts and removes — i.e.
after each operation of any such sequence starting from the empty tree —
the root is black or the tree is empty (P1), no red node has a red child
(P2), every root-to-sentinel path carries the same black count (P3), the
in-order sequence of comparison keys is strictly increasing, so each key
occurs at most once (P4), and `len()` equals the number of real nodes
reachable from the root. -/
theorem C1_invariants {pi : K → Q} {t : Tr K V} (h : Reach pi t) :
    (t.root = .nil ∨ t.root.rootCol = some Col.black) ∧
    NoRedRed t.root ∧
    (∃ n, ∀ x ∈ bpc t.root, x = n) ∧
    t.root.inorder.Pairwise (fun a b => pi a.1 < pi b.1) ∧
    lenM t = t.root.size := by
  obtain ⟨⟨n, hb⟩, ho, hlen⟩ := h.inv
  refine ⟨?_, hb.noRedRed, ⟨n, hb.bpc_eq⟩, ho.pairwise, hlen⟩
  rcases hroot : t.root with _ | ⟨c, l, k, v, r⟩
  · exact Or.inl rfl
  · rw [hroot] at hb
    cases hb with
    | black hl hr => exact Or.inr rfl

theorem C1_invariants_witness :
    ((⟨.node Col.black .nil 1 10 .nil, 1⟩ : Tr Int Int).root = .nil ∨
      (⟨.node Col.black .nil 1 10 .nil, 1⟩ : Tr Int Int).root.rootCol =
        some Col.black) ∧
    NoRedRed (⟨.node Col.black .nil 1 10 .nil, 1⟩ : Tr Int Int).root ∧
    (∃ n, ∀ x ∈ bpc (⟨.node Col.black .nil 1 10 .nil, 1⟩ : Tr Int Int).root,
      x = n) ∧
    (⟨.node Col.black .nil 1 10 .nil, 1⟩ :
      Tr Int Int).root.inorder.Pairwise (fun a b => a.1 < b.1) ∧
    lenM (⟨.node Col.black .nil 1 10 .nil, 1⟩ : Tr Int Int) =
      (⟨.node Col.black .nil 1 10 .nil, 1⟩ : Tr Int Int).root.size := by
  have hstep : insertM (fun x : Int => x) (newM Int Int) 1 10 =
      .ok (none, (⟨.node Col.black .nil 1 10 .nil, 1⟩ : Tr Int Int)) := rfl
  exact C1_invariants (Reach.ins Reach.new hstep)

/-- C2 (mod.rs:575-602 `clear`, 509-515 `len`/`is_empty`): `clear()` on
the already-empty tree is a no-op and after `clear()` the root is the
sentinel, so iteration yields nothing; but the teardown loop never
writes `self.len`, so on a reachable one-element tree `len()` still
returns 1 and `is_empty()` still returns `false` after `clear()` — the
claimed `len() == 0` fails. -/
theorem C2_clear_len_bug :
    ∃ t : Tr Int Int, Reach (fun x : Int => x) t ∧
      clearM (newM Int Int) = newM Int Int ∧
      (clearM t).root = .nil ∧
      iterPairs (clearM t) = [] ∧
      lenM (clearM t) = 1 ∧
      is_emptyM (clearM t) = false := by
  have hstep : insertM (fun x : Int => x) (newM Int Int) 1 10 =
      .ok (none, (⟨.node Col.black .nil 1 10 .nil, 1⟩ : Tr Int Int)) := rfl
  refine ⟨⟨.node Col.black .nil 1 10 .nil, 1⟩,
    Reach.ins Reach.new hstep, rfl, rfl, ?_, rfl, rfl⟩
  rw [iterPairs_eq_inorder]
  rfl

/-- C3 (mod.rs:79-89): inserting `(k, v1)` into a reachable tree makes
`get(k)` yield `v1`; a second `insert(k, v2)` returns `Some(v1)`, after
it `get(k)` yields `v2`, and `len()` is unchanged by the second insert. -/
theorem C3_insert_get {pi : K → Q} {t : Tr K V} (h : Reach pi t)
    (k : K) (v1 v2 : V) :
    ∃ t1 r1 t2,
      insertM pi t k v1 = .ok (r1, t1) ∧
      getT pi t1.root (pi k) = some v1 ∧
      insertM pi t1 k v2 = .ok (some v1, t2) ∧
      getT pi t2.root (pi k) = some v2 ∧
      lenM t2 = lenM t1 := by
  obtain ⟨r1, t1, hok1, hI1, hget1, _, _⟩ := insertM_ok h.inv k v1
  obtain ⟨r2, t2, hok2, hI2, hget2, hn2, hs2⟩ := insertM_ok hI1 k v2
  have hr2 : r2 = some v1 := by
    cases r2 with
    | none =>
      exfalso
      obtain ⟨_, hcon, _⟩ := hn2 rfl
      rw [contains_keyT_eq] at hcon
      rw [getT_eq_get_key_valueT] at hget1
      cases hgk : get_key_valueT pi t1.root (pi k) with
      | none => rw [hgk] at hget1; simp at hget1
      | some kv => rw [hgk] at hcon; simp at hcon
    | some v0 =>
      obtain ⟨_, hgv0, _, _⟩ := hs2 v0 rfl
      rw [hget1] at hgv0
      cases hgv0
      rfl
  subst hr2
  obtain ⟨hlen2, _, _, _⟩ := hs2 v1 rfl
  exact ⟨t1, r1, t2, hok1, hget1, hok2, hget2, hlen2⟩

theorem C3_insert_get_witness :
    ∃ t1 r1 t2,
      insertM (fun x : Int => x) (newM Int Int) 1 10 = .ok (r1, t1) ∧
      getT (fun x : Int => x) t1.root 1 = some 10 ∧
      insertM (fun x : Int => x) t1 1 20 = .ok (some 10, t2) ∧
      getT (fun x : Int => x) t2.root 1 = some 20 ∧
      lenM t2 = lenM t1 :=
  C3_insert_get Reach.new 1 10 20

/-- C4 (mod.rs:172-345 `remove_entry`, 564-570 `contains_key`): after
inserting `(k, v)` into a reachable tree, `remove(k)` returns `Some v`,
afterwards `contains_key(k)` is `false` and `len()` has decreased by
exactly 1; `remove_entry(k)` likewise returns the removed pair (whose
key compares equal to `k`). -/
theorem C4_remove_roundtrip {pi : K → Q} {t : Tr K V} (h : Reach pi t)
    (k : K) (v : V) {r1 : Option V} {t1 : Tr K V}
    (hins : insertM pi t k v = .ok (r1, t1)) :
    (∃ t2, removeM pi t1 (pi k) = .ok (some v, t2) ∧
      contains_keyT pi t2.root (pi k) = false ∧ lenM t2 + 1 = lenM t1) ∧
    (∃ k0 t2, removeEntryM pi t1 (pi k) = .ok (some (k0, v), t2) ∧
      pi k0 = pi k) := by
  obtain ⟨r1x, t1x, hok1, hI1, hget1, _, _⟩ := insertM_ok h.inv k v
  rw [hins] at hok1
  cases hok1
  obtain ⟨rE, t2, hok2, hI2, hnone2, hsome2⟩ := removeEntryM_ok hI1 (pi k)
  cases rE with
  | none =>
    exfalso
    obtain ⟨_, hcon⟩ := hnone2 rfl
    rw [contains_keyT_eq] at hcon
    rw [getT_eq_get_key_valueT] at hget1
    cases hgk : get_key_valueT pi t1.root (pi k) with
    | none => rw [hgk] at hget1; simp at hget1
    | some kv => rw [hgk] at hcon; simp at hcon
  | some kv0 =>
    obtain ⟨k0, v0⟩ := kv0
    obtain ⟨hpk0, hgkv, hcont2, hlen2⟩ := hsome2 k0 v0 rfl
    have hv0 : v0 = v := by
      rw [getT_eq_get_key_valueT, hgkv] at hget1
      have h2 : some v0 = some v := by simpa using hget1
      cases h2
      rfl
    subst hv0
    constructor
    · refine ⟨t2, ?_, hcont2, hlen2⟩
      unfold removeM
      rw [hok2]
    · exact ⟨k0, t2, hok2, hpk0⟩

theorem C4_remove_roundtrip_witness :
    (∃ t2, removeM (fun x : Int => x)
        (⟨.node Col.black .nil 1 10 .nil, 1⟩ : Tr Int Int) 1 =
        .ok (some 10, t2) ∧
      contains_keyT (fun x : Int => x) t2.root 1 = false ∧
      lenM t2 + 1 = lenM (⟨.node Col.black .nil 1 10 .nil, 1⟩ : Tr Int Int)) ∧
    (∃ k0 t2, removeEntryM (fun x : Int => x)
        (⟨.node Col.black .nil 1 10 .nil, 1⟩ : Tr Int Int) 1 =
        .ok (some (k0, 10), t2) ∧ (fun x : Int => x) k0 = 1) :=
  C4_remove_roundtrip Reach.new 1 10 (by rfl)

/-- C5 (mod.rs:177-180): removing a key that is not in the tree returns
the empty result and hands back the very same tree — identical shape,
colors, keys, values and `len`, with no rebalancing — for `remove_entry`
and for `remove`, on every tree whatsoever. -/
theorem C5_remove_absent (pi : K → Q) (t : Tr K V) (q : Q)
    (h : contains_keyT pi t.root q = false) :
    removeEntryM pi t q = .ok (none, t) ∧ removeM pi t q = .ok (none, t) := by
  rcases hf : findZip pi t.root q [] with ⟨p, f⟩
  cases f with
  | node c l k v r =>
    exfalso
    unfold contains_keyT at h
    rw [hf] at h
    simp [RTree.is_nil] at h
  | nil =>
    have hT : removeEntryT pi t.root q = .ok (none, t.root) := by
      unfold removeEntryT
      rw [hf]
    have h1 : removeEntryM pi t q = .ok (none, t) := by
      unfold removeEntryM
      rw [hT]
    refine ⟨h1, ?_⟩
    unfold removeM
    rw [h1]

theorem C5_remove_absent_witness :
    contains_keyT (fun x : Int => x) (newM Int Int).root 0 = false ∧
    (removeEntryM (fun x : Int => x) (newM Int Int) 0 =
        .ok (none, newM Int Int) ∧
      removeM (fun x : Int => x) (newM Int Int) 0 = .ok (none, newM Int Int)) :=
  ⟨rfl, C5_remove_absent (fun x : Int => x) (newM Int Int) 0 rfl⟩

/-- C6 (mod.rs:685-703 `iter_next`, 711-728 `Iter::next`, 789-807
`IntoIter::next`): on every reachable tree, iteration yields the pairs
in strictly increasing key order, and the three access modes (borrowed,
mutably borrowed, owning) — all driven by the same `iter_next` walk —
produce identical sequences. -/
theorem C6_iteration {pi : K → Q} {t : Tr K V} (h : Reach pi t) :
    (iterPairs t).Pairwise (fun a b => pi a.1 < pi b.1) ∧
    iterMutPairs t = iterPairs t ∧ intoIterPairs t = iterPairs t := by
  refine ⟨?_, rfl, rfl⟩
  rw [iterPairs_eq_inorder]
  exact h.inv.2.1.pairwise

theorem C6_iteration_witness :
    (iterPairs (⟨.node Col.black .nil 1 10 .nil, 1⟩ :
      Tr Int Int)).Pairwise (fun a b => a.1 < b.1) ∧
    iterMutPairs (⟨.node Col.black .nil 1 10 .nil, 1⟩ : Tr Int Int) =
      iterPairs (⟨.node Col.black .nil 1 10 .nil, 1⟩ : Tr Int Int) ∧
    intoIterPairs (⟨.node Col.black .nil 1 10 .nil, 1⟩ : Tr Int Int) =
      iterPairs (⟨.node Col.black .nil 1 10 .nil, 1⟩ : Tr Int Int) := by
  have hstep : insertM (fun x : Int => x) (newM Int Int) 1 10 =
      .ok (none, (⟨.node Col.black .nil 1 10 .nil, 1⟩ : Tr Int Int)) := rfl
  exact C6_iteration (Reach.ins Reach.new hstep)

/-- C7 (mod.rs:651-658 `Index::index`, 666-673 `IndexMut::index_mut`):
indexing aborts (the embedded `.error ()` stands for the
`panic!("key not found")`) exactly when the key is absent, returns the
stored value when the key is present, and the mutable indexing behaves
identically; unlike `get`/`get_mut`/`get_key_value`, which return an
optional result, this is the lookup that turns a missing key into a
hard failure. -/
theorem C7_index_abort (pi : K → Q) (t : RTree K V) (q : Q) :
    (indexT pi t q = .error () ↔ contains_keyT pi t q = false) ∧
    (∀ v, getT pi t q = some v → indexT pi t q = .ok v) ∧
    index_mutT pi t q = indexT pi t q := by
  refine ⟨?_, ?_, index_mutT_eq_indexT t q⟩
  · rw [indexT_eq_getT, contains_keyT_eq, getT_eq_get_key_valueT]
    cases get_key_valueT pi t q with
    | none => simp
    | some kv => simp
  · intro v hv
    rw [indexT_eq_getT, hv]

theorem C7_index_abort_witness :
    indexT (fun x : Int => x) (.node Col.black .nil 1 10 .nil) 1 = .ok 10 ∧
    indexT (fun x : Int => x) (RTree.nil : RTree Int Int) 0 = .error () :=
  ⟨(C7_index_abort (fun x : Int => x)
      (.node Col.black .nil 1 10 .nil) 1).2.1 10 rfl,
    (C7_index_abort (fun x : Int => x) (RTree.nil : RTree Int Int) 0).1.2 rfl⟩

/-- C8 (mod.rs:550-561): the docs and spec promise an optional mutable
reference, but the code's signature is
`fn get_mut<Q>(&self, key: &Q) -> Option<&V>` — it borrows the tree
immutably and returns a shared reference, so no caller can modify the
stored value through it.  At the value level `get_mut` therefore
coincides with `get`: `None` exactly when the key is absent, and the
stored value otherwise. -/
theorem C8_get_mut (pi : K → Q) (t : RTree K V) (q : Q) :
    get_mutT pi t q = getT pi t q ∧
    (get_mutT pi t q = none ↔ contains_keyT pi t q = false) := by
  refine ⟨rfl, ?_⟩
  rw [get_mutT_eq_getT, getT_eq_get_key_valueT, contains_keyT_eq]
  cases get_key_valueT pi t q with
  | none => simp
  | some kv => simp

/-- C9 (node.rs:107-120 `init`, mod.rs:348-372 `find_nearest_node`,
250-345 `remove_entry`): the raw representation of every reachable tree
is well formed — every real node has both children present and an
initialized key/value slot, every sentinel has no children — so
`find_nearest_node`'s child unwraps and `key()` reads cannot fail, and
the insert and remove paths (whose `unwrap`s and sentinel reads are the
`.error` outcomes of the embedding) always return successfully. -/
theorem C9_shape_safety {pi : K → Q} {t : Tr K V} (h : Reach pi t) :
    wfRaw (toRaw t.root) = true ∧
    (∀ q, ∃ res, rawFind pi q (toRaw t.root) = .ok res) ∧
    (∀ k v, ∃ r t2, insertM pi t k v = .ok (r, t2)) ∧
    (∀ q, ∃ r t2, removeEntryM pi t q = .ok (r, t2)) := by
  refine ⟨toRaw_wf t.root,
    fun q => rawFind_ok pi q _ (toRaw_wf t.root), ?_, ?_⟩
  · intro k v
    obtain ⟨r, t2, hok, _⟩ := insertM_ok h.inv k v
    exact ⟨r, t2, hok⟩
  · intro q
    obtain ⟨r, t2, hok, _⟩ := removeEntryM_ok h.inv q
    exact ⟨r, t2, hok⟩

theorem C9_shape_safety_witness :
    wfRaw (toRaw (⟨.node Col.black .nil 1 10 .nil, 1⟩ :
      Tr Int Int).root) = true ∧
    (∃ r t2, insertM (fun x : Int => x)
      (⟨.node Col.black .nil 1 10 .nil, 1⟩ : Tr Int Int) 2 20 =
      .ok (r, t2)) ∧
    (∃ r t2, removeEntryM (fun x : Int => x)
      (⟨.node Col.black .nil 1 10 .nil, 1⟩ : Tr Int Int) 1 =
      .ok (r, t2)) := by
  have hstep : insertM (fun x : Int => x) (newM Int Int) 1 10 =
      .ok (none, (⟨.node Col.black .nil 1 10 .nil, 1⟩ : Tr Int Int)) := rfl
  have h := C9_shape_safety (Reach.ins Reach.new hstep)
  exact ⟨h.1, h.2.2.1 2 20, h.2.2.2 1⟩

/-- C10 (mod.rs:79-89, 531-547): when `insert` meets a key that is
already present (equal under the comparison projection), only the
stored value is replaced: the key object stored by the first insertion
is kept and the newly passed key object is discarded, so a later
`get_key_value` returns the first key paired with the new value, and
the tree's skeleton — shape, colors and stored keys — and `len` are
untouched. -/
theorem C10_upsert_frame {pi : K → Q} {t : Tr K V} (h : Reach pi t)
    (k1 k2 : K) (v1 v2 : V) (hpi : pi k2 = pi k1)
    {r1 : Option V} {t1 : Tr K V}
    (hins1 : insertM pi t k1 v1 = .ok (r1, t1)) (hnew : r1 = none) :
    ∃ t2, insertM pi t1 k2 v2 = .ok (some v1, t2) ∧
      get_key_valueT pi t2.root (pi k1) = some (k1, v2) ∧
      skel t2.root = skel t1.root ∧ lenM t2 = lenM t1 := by
  obtain ⟨r1x, t1x, hok1, hI1, hget1, hn1, _⟩ := insertM_ok h.inv k1 v1
  rw [hins1] at hok1
  cases hok1
  subst hnew
  obtain ⟨_, _, hgkv1⟩ := hn1 rfl
  obtain ⟨r2, t2, hok2, hI2, hget2, hn2, hs2⟩ := insertM_ok hI1 k2 v2
  have hr2 : r2 = some v1 := by
    cases r2 with
    | none =>
      exfalso
      obtain ⟨_, hcon, _⟩ := hn2 rfl
      rw [contains_keyT_eq, hpi, hgkv1] at hcon
      simp at hcon
    | some v0 =>
      obtain ⟨_, hgv0, _, _⟩ := hs2 v0 rfl
      rw [getT_eq_get_key_valueT, hpi, hgkv1] at hgv0
      have h2 : some v1 = some v0 := by simpa using hgv0
      cases h2
      rfl
  subst hr2
  obtain ⟨hlen2, _, hskel2, hkeep⟩ := hs2 v1 rfl
  have hgkv2 := hkeep k1 v1 (by rw [hpi]; exact hgkv1)
  refine ⟨t2, hok2, ?_, hskel2, hlen2⟩
  rw [← hpi]
  exact hgkv2

theorem C10_upsert_frame_witness :
    ∃ t2, insertM (fun p : Int × Int => p.1)
        (⟨.node Col.black .nil (1, 0) 5 .nil, 1⟩ : Tr (Int × Int) Int)
        (1, 99) 7 = .ok (some 5, t2) ∧
      get_key_valueT (fun p : Int × Int => p.1) t2.root 1 =
        some ((1, 0), 7) ∧
      skel t2.root =
        skel (⟨.node Col.black .nil (1, 0) 5 .nil, 1⟩ :
          Tr (Int × Int) Int).root ∧
      lenM t2 = lenM (⟨.node Col.black .nil (1, 0) 5 .nil, 1⟩ :
        Tr (Int × Int) Int) :=
  C10_upsert_frame Reach.new (1, 0) (1, 99) 5 7 rfl (by rfl) rfl

end Claims

end RbEmb
